import Mathlib

/-!
Verification development for the patch-path discovery, deduplication and
rewriting algorithm of `src/patches.rs` (cargo-remote).

The development shallowly embeds:
 * Rust `std::path::PathBuf` at the level the source uses it
   (`components`-based prefix tests, `strip_prefix`, `file_name`, `push`,
   `to_str`) as lists of path components;
 * the `toml_edit` document model at the level the source uses it
   (top-level table lookup, sub-table iteration, inline tables with
   `get`/`insert` of string values), keeping the raw formatting bytes of
   every node so that serialization questions can be stated;
 * the planner `extract_patched_crates_and_adjust_toml`, the orchestration
   `handle_patches`, and the argument lists of the rsync invocations of
   `copy_patches_to_remote`.

All failure cases of the Rust planner are panics (`expect` / `unwrap`);
`Except.error` carries the corresponding panic message, so `Except.error`
throughout models process abort.
-/

namespace CargoRemote

/-! ## Filesystem paths (Rust `PathBuf` at `components()` level) -/

/-- Path component, mirroring the `std::path::Component` cases that can occur
for the unix-style paths the source manipulates. -/
inductive Component where
  | rootDir
  | curDir
  | parentDir
  | normal (s : String)
deriving DecidableEq, Repr

/-- A path is its list of components, as produced by Rust `Path::components()`. -/
abbrev RPath := List Component

/-- Split a character list at `'/'` separators (structural-recursion model of
splitting the raw path string). -/
def splitSlashAux : List Char → List Char → List String
  | [], acc => [String.mk acc.reverse]
  | c :: rest, acc =>
    if c = '/' then String.mk acc.reverse :: splitSlashAux rest []
    else splitSlashAux rest (c :: acc)

/-- Interpret one raw piece between separators as a component; empty pieces
(repeated separators) are dropped, as Rust `components()` does. -/
def rawComponent (s : String) : Option Component :=
  if s = "" then none
  else if s = "." then some Component.curDir
  else if s = ".." then some Component.parentDir
  else some (Component.normal s)

/-- Parse a raw path string into components, following Rust
`Path::components()` normalization: repeated separators collapse, `.` is
dropped except as the leading component of a relative path. -/
def parsePath (s : String) : RPath :=
  let raw := (splitSlashAux s.data []).filterMap rawComponent
  match s.data with
  | '/' :: _ => Component.rootDir :: raw.filter (fun c => c != Component.curDir)
  | _ =>
    match raw with
    | Component.curDir :: rest => Component.curDir :: rest.filter (fun c => c != Component.curDir)
    | l => l.filter (fun c => c != Component.curDir)

/-- Rust `Path::strip_prefix`: remove `pre` as a leading component sequence. -/
def stripPrefixPath (p pre : RPath) : Option RPath :=
  if pre.isPrefixOf p then some (p.drop pre.length) else none

/-- Rust `Path::file_name`: the final component when it is a normal one. -/
def fileNamePath (p : RPath) : Option String :=
  match p.getLast? with
  | some (Component.normal s) => some s
  | _ => none

/-- Rust `PathBuf::push`: an absolute argument replaces the buffer, otherwise
components are appended. -/
def pushPath (a b : RPath) : RPath :=
  match b with
  | Component.rootDir :: _ => b
  | _ => a ++ b

/-- Render one component back to text. -/
def componentToString : Component → String
  | Component.rootDir => "/"
  | Component.curDir => "."
  | Component.parentDir => ".."
  | Component.normal s => s

/-- Join relative components with `/` separators. -/
def joinComponents : List Component → String
  | [] => ""
  | [c] => componentToString c
  | c :: rest => componentToString c ++ "/" ++ joinComponents rest

/-- Rust `Path::to_str` for a component list (unix-style rendering). -/
def pathToString : RPath → String
  | Component.rootDir :: rest => "/" ++ joinComponents rest
  | p => joinComponents p

/-! ## The `toml_edit` document model, at the granularity the source uses -/

/-- A TOML scalar value, as far as the planner inspects values
(`Value::as_str` distinguishes strings from everything else). -/
inductive TValue where
  | str (s : String)
  | int (n : Int)
  | boolV (b : Bool)
deriving DecidableEq, Repr

/-- One `key = value` entry of an inline table.  `pre` holds every raw byte
before the value's own representation (decor, key text, `=`), `valRepr` the
raw bytes of the value, `post` the raw bytes after it (decor, comma).  The
parsed `key` and `value` are what the structural API exposes. -/
structure InlineEntry where
  pre : String
  key : String
  valRepr : String
  value : TValue
  post : String
deriving DecidableEq, Repr

/-- A `toml_edit::Item`, restricted to the shapes the planner distinguishes:
an inline-table value, a regular table, `None`, and any other item kept as
raw bytes together with its parsed scalar value.  A table keeps its entries
as `(raw bytes before the item, key, item)` triples in document order. -/
inductive Item where
  | scalarItem (raw : String) (v : TValue)
  | inlineItem (pre : String) (entries : List InlineEntry) (post : String)
  | tableItem (entries : List (String × String × Item))
  | noneItem

/-- A parsed manifest document: the root table's entries plus trailing bytes. -/
structure Document where
  entries : List (String × String × Item)
  trailing : String

/-- Index a table's entry list by key (first occurrence), as
`toml_edit` table indexing does. -/
def findEntry : List (String × String × Item) → String → Option Item
  | [], _ => none
  | (_, key, item) :: rest, k => if key = k then some item else findEntry rest k

/-- `InlineTable::get`: the value stored under a key (first occurrence). -/
def inlineGet : List InlineEntry → String → Option TValue
  | [], _ => none
  | e :: rest, k => if e.key = k then some e.value else inlineGet rest k

/-- Canonical representation of a freshly created string value
(`toml_edit::Value::from(&str)`): a double-quoted basic string. -/
def renderStr (s : String) : String := "\x22" ++ s ++ "\x22"

/-- `InlineTable::insert("path", Value::from(s))`: replace the value of the
existing `path` entry in place (keeping its position and surrounding bytes),
appending a fresh entry when the key is absent. -/
def inlineInsertPath : List InlineEntry → String → List InlineEntry
  | [], s => [{ pre := "path = ", key := "path", valRepr := renderStr s,
                value := TValue.str s, post := "" }]
  | e :: rest, s =>
    if e.key = "path" then
      { e with valRepr := renderStr s, value := TValue.str s } :: rest
    else e :: inlineInsertPath rest s

/-- Serialize one inline-table entry back to its bytes. -/
def serializeInlineEntry (e : InlineEntry) : String := e.pre ++ e.valRepr ++ e.post

/-- Serialize a list of inline-table entries. -/
def serializeInlineEntries : List InlineEntry → String
  | [] => ""
  | e :: rest => serializeInlineEntry e ++ serializeInlineEntries rest

mutual

/-- Serialize an item back to its bytes (`toml_edit` round-trips untouched
nodes exactly; this is the model of `Document::to_string`). -/
def serializeItem : Item → String
  | Item.scalarItem raw _ => raw
  | Item.inlineItem pre es post =>
      pre ++ "\x7b" ++ serializeInlineEntries es ++ "\x7d" ++ post
  | Item.tableItem es => serializeEntries es
  | Item.noneItem => ""

/-- Serialize a table's entry list. -/
def serializeEntries : List (String × String × Item) → String
  | [] => ""
  | (p, _, i) :: rest => p ++ serializeItem i ++ serializeEntries rest

end

/-- Serialize a whole document. -/
def serializeDoc (d : Document) : String := serializeEntries d.entries ++ d.trailing

/-! ## The planner (`src/patches.rs`) -/

/-- Rust struct `PatchProject` (src/patches.rs:37-42). -/
structure PatchProject where
  name : String
  local_path : RPath
  remote_path : RPath
deriving DecidableEq, Repr

/-- Panic message of `Option::unwrap` on `None`. -/
def unwrapNoneMsg : String := "called `Option::unwrap()` on a `None` value"

/-- The running-list containment check of the planner
(src/patches.rs:88-90): the first already-known workspace whose
`local_path` is a component-wise prefix of the given path. -/
def findKnownWorkspace (ws : List PatchProject) (path : RPath) : Option PatchProject :=
  ws.find? (fun known_target => known_target.local_path.isPrefixOf path)

/-- One iteration of the planner loop (src/patches.rs:81-131) on a single
inline crate table: rewrite its `path` entry (when present) and extend the
running workspace list when a new workspace is discovered.  Every
`Except.error` corresponds to a panic of the source. -/
def processInline (locate_workspace : RPath → Except String RPath)
    (ws : List PatchProject) (es : List InlineEntry) :
    Except String (List InlineEntry × List PatchProject) :=
  match inlineGet es "path" with
  | none => Except.ok (es, ws)
  | some v =>
    match v with
    | TValue.str s =>
      let path := parsePath s
      match findKnownWorkspace ws path with
      | none =>
        match locate_workspace path with
        | Except.error e =>
            Except.error ("Can not determine workspace path: \x22" ++ e ++ "\x22")
        | Except.ok workspace_folder_path =>
          match fileNamePath workspace_folder_path with
          | none => Except.error unwrapNoneMsg
          | some workspace_folder_name =>
            let remote_folder : RPath :=
              [Component.parentDir, Component.normal workspace_folder_name]
            let ws' := ws ++ [PatchProject.mk workspace_folder_name
                                workspace_folder_path remote_folder]
            match stripPrefixPath path workspace_folder_path with
            | none => Except.error "Jawoll: StripPrefixError(())"
            | some rel =>
                Except.ok (inlineInsertPath es (pathToString (pushPath remote_folder rel)), ws')
      | some patch_target =>
        match stripPrefixPath path patch_target.local_path with
        | none => Except.error "Jawoll: StripPrefixError(())"
        | some rel =>
            Except.ok
              (inlineInsertPath es (pathToString (pushPath patch_target.remote_path rel)), ws)
    | _ => Except.error unwrapNoneMsg

/-- Process the entries of one table directly under `patch` (the children
that are inline tables are exactly the collected `patched_paths` of
src/patches.rs:63-74), threading the running workspace list. -/
def processCrateEntries (locate_workspace : RPath → Except String RPath) :
    List PatchProject → List (String × String × Item) →
    Except String (List (String × String × Item) × List PatchProject)
  | ws, [] => Except.ok ([], ws)
  | ws, (p, k, item) :: rest =>
    match item with
    | Item.inlineItem pre es post =>
      match processInline locate_workspace ws es with
      | Except.error e => Except.error e
      | Except.ok (es1, ws1) =>
        match processCrateEntries locate_workspace ws1 rest with
        | Except.error e => Except.error e
        | Except.ok (rest', ws2) =>
            Except.ok ((p, k, Item.inlineItem pre es1 post) :: rest', ws2)
    | _ =>
      match processCrateEntries locate_workspace ws rest with
      | Except.error e => Except.error e
      | Except.ok (rest', ws2) => Except.ok ((p, k, item) :: rest', ws2)

/-- Process the children of the top-level `patch` table; only children that
are themselves tables are visited (`as_table_mut`, src/patches.rs:67). -/
def processPatchEntries (locate_workspace : RPath → Except String RPath) :
    List PatchProject → List (String × String × Item) →
    Except String (List (String × String × Item) × List PatchProject)
  | ws, [] => Except.ok ([], ws)
  | ws, (p, k, item) :: rest =>
    match item with
    | Item.tableItem es =>
      match processCrateEntries locate_workspace ws es with
      | Except.error e => Except.error e
      | Except.ok (es1, ws1) =>
        match processPatchEntries locate_workspace ws1 rest with
        | Except.error e => Except.error e
        | Except.ok (rest', ws2) => Except.ok ((p, k, Item.tableItem es1) :: rest', ws2)
    | _ =>
      match processPatchEntries locate_workspace ws rest with
      | Except.error e => Except.error e
      | Except.ok (rest', ws2) => Except.ok ((p, k, item) :: rest', ws2)

/-- Walk the root table to the first `patch` entry (table indexing,
src/patches.rs:64): when it is a table, rewrite it; when it is missing or
not a table, report "no patches" (`Option.none`). -/
def rewritePatchEntry (locate_workspace : RPath → Except String RPath) :
    List (String × String × Item) →
    Except String (Option (List (String × String × Item) × List PatchProject))
  | [] => Except.ok none
  | (p, k, item) :: rest =>
    if k = "patch" then
      match item with
      | Item.tableItem es =>
        match processPatchEntries locate_workspace [] es with
        | Except.error e => Except.error e
        | Except.ok (es1, ws) => Except.ok (some ((p, k, Item.tableItem es1) :: rest, ws))
      | _ => Except.ok none
    else
      match rewritePatchEntry locate_workspace rest with
      | Except.error e => Except.error e
      | Except.ok none => Except.ok none
      | Except.ok (some (rest', ws)) => Except.ok (some ((p, k, item) :: rest', ws))

/-- Rust `extract_patched_crates_and_adjust_toml` (src/patches.rs:54-133) on
an already-parsed document (parsing is the external document capability;
the source panics on unparsable input before this logic runs).  Returns
`none` when the document has no `patch` table, otherwise the rewritten
document together with the workspaces to copy. -/
def extract_patched_crates_and_adjust_toml (manifest : Document)
    (locate_workspace : RPath → Except String RPath) :
    Except String (Option (Document × List PatchProject)) :=
  match rewritePatchEntry locate_workspace manifest.entries with
  | Except.error e => Except.error e
  | Except.ok none => Except.ok none
  | Except.ok (some (es, ws)) =>
      Except.ok (some ({ entries := es, trailing := manifest.trailing }, ws))

/-! ## Transfer executor (`copy_patches_to_remote`, src/patches.rs:167-233),
modelled as the argument lists of the rsync invocations it performs. -/

/-- Modelled from the spec: the progress flag constant `PROGRESS_FLAG` is
defined in the crate root, which is not part of the provided sources; its
exact value is immaterial to every claim. -/
def PROGRESS_FLAG : String := "--info=progress2"

/-- Argument list of one rsync invocation. -/
structure RsyncCall where
  args : List String
deriving DecidableEq, Repr

/-- The per-workspace rsync invocation (src/patches.rs:187-209). -/
def workspaceRsyncCall (build_server : String) (p : PatchProject) : RsyncCall :=
  ⟨["-a", "-q", "--delete", "--compress", PROGRESS_FLAG, "--exclude", "target",
    "--exclude", ".*", "--rsync-path", "mkdir -p remote-builds/patches && rsync",
    pathToString p.local_path ++ "/",
    build_server ++ ":" ++ pathToString p.remote_path]⟩

/-- The final manifest rsync invocation (src/patches.rs:219-232). -/
def tomlRsyncCall (build_path build_server tmp_toml : String) : RsyncCall :=
  ⟨["-vz", PROGRESS_FLAG, tmp_toml, build_server ++ ":" ++ build_path ++ "/Cargo.toml"]⟩

/-- Rust `copy_patches_to_remote` as the sequence of rsync invocations it
issues: one mirrored copy per workspace, then the rewritten manifest. -/
def copy_patches_to_remote (build_path build_server tmp_toml : String)
    (projects_to_copy : List PatchProject) : List RsyncCall :=
  projects_to_copy.map (workspaceRsyncCall build_server) ++
    [tomlRsyncCall build_path build_server tmp_toml]

/-- Rust `handle_patches` (src/patches.rs:144-165): extract and rewrite, and
when patches exist, the rewritten document is written out and the transfer
commands are issued; `Except.ok none` is the successful no-op. -/
def handle_patches (build_path build_server : String) (manifest : Document)
    (tmp_toml : String) (locate_workspace : RPath → Except String RPath) :
    Except String (Option (Document × List RsyncCall)) :=
  match extract_patched_crates_and_adjust_toml manifest locate_workspace with
  | Except.error e => Except.error e
  | Except.ok none => Except.ok none
  | Except.ok (some (patched_cargo_doc, project_list)) =>
      Except.ok (some (patched_cargo_doc,
        copy_patches_to_remote build_path build_server tmp_toml project_list))

end CargoRemote

namespace CargoRemote

/-! ## Basic lemmas about the path and inline-table operations -/

theorem stripPrefixPath_eq_some {p pre rel : RPath}
    (h : stripPrefixPath p pre = some rel) :
    pre <+: p ∧ rel = p.drop pre.length := by
  unfold stripPrefixPath at h
  by_cases hb : pre.isPrefixOf p
  · refine ⟨ List.isPrefixOf_iff_prefix.mp hb, ?_⟩
    simp [hb] at h
    exact h.symm
  · simp [hb] at h

theorem stripPrefixPath_of_isPrefixOf {p pre : RPath} (h : pre.isPrefixOf p = true) :
    stripPrefixPath p pre = some (p.drop pre.length) := by
  unfold stripPrefixPath
  simp [h]

theorem inlineGet_insertPath {es : List InlineEntry} {v : TValue} (s : String)
    (h : inlineGet es "path" = some v) :
    inlineGet (inlineInsertPath es s) "path" = some (TValue.str s) := by
  induction es with
  | nil => simp [inlineGet] at h
  | cons e rest ih =>
    unfold inlineGet at h
    by_cases hk : e.key = "path"
    · simp [inlineInsertPath, hk, inlineGet]
    · simp [hk] at h
      simp [inlineInsertPath, hk, inlineGet, ih h]

theorem fileNamePath_parent_normal (n : String) :
    fileNamePath [Component.parentDir, Component.normal n] = some n := rfl

end CargoRemote

namespace CargoRemote

/-- Characterization of one successful planner iteration: either the inline
table has no `path` entry and nothing happens, or the `path` entry holds a
string and is rewritten relative to a workspace that is either found in the
running list or freshly obtained from the locator. -/
theorem processInline_spec {locate : RPath → Except String RPath}
    {ws ws' : List PatchProject} {es es' : List InlineEntry}
    (h : processInline locate ws es = Except.ok (es', ws')) :
    (inlineGet es "path" = none ∧ es' = es ∧ ws' = ws) ∨
    ∃ s W, inlineGet es "path" = some (TValue.str s) ∧
      W.local_path <+: parsePath s ∧
      es' = inlineInsertPath es
          (pathToString (pushPath W.remote_path ((parsePath s).drop W.local_path.length))) ∧
      ((findKnownWorkspace ws (parsePath s) = some W ∧ ws' = ws) ∨
       (findKnownWorkspace ws (parsePath s) = none ∧
        locate (parsePath s) = Except.ok W.local_path ∧
        fileNamePath W.local_path = some W.name ∧
        W.remote_path = [Component.parentDir, Component.normal W.name] ∧
        ws' = ws ++ [W])) := by
  unfold processInline at h
  cases hg : inlineGet es "path" with
  | none =>
    simp only [hg] at h
    obtain ⟨h1, h2⟩ := Prod.ext_iff.mp (Except.ok.inj h)
    exact Or.inl ⟨rfl, h1.symm, h2.symm⟩
  | some v =>
    simp only [hg] at h
    cases v with
    | str s =>
      cases hf : findKnownWorkspace ws (parsePath s) with
      | none =>
        simp only [hf] at h
        cases hl : locate (parsePath s) with
        | error e => simp [hl] at h
        | ok wroot =>
          simp only [hl] at h
          cases hn : fileNamePath wroot with
          | none => simp [hn] at h
          | some n =>
            simp only [hn] at h
            cases hs : stripPrefixPath (parsePath s) wroot with
            | none => simp [hs] at h
            | some rel =>
              simp only [hs] at h
              obtain ⟨hpre, hrel⟩ := stripPrefixPath_eq_some hs
              obtain ⟨h1, h2⟩ := Prod.ext_iff.mp (Except.ok.inj h)
              refine Or.inr ⟨s, PatchProject.mk n wroot
                [Component.parentDir, Component.normal n], rfl, hpre, ?_, Or.inr ?_⟩
              · subst hrel
                exact h1.symm
              · exact ⟨hf, hl, hn, rfl, h2.symm⟩
      | some W =>
        simp only [hf] at h
        cases hs : stripPrefixPath (parsePath s) W.local_path with
        | none => simp [hs] at h
        | some rel =>
          simp only [hs] at h
          obtain ⟨hpre, hrel⟩ := stripPrefixPath_eq_some hs
          obtain ⟨h1, h2⟩ := Prod.ext_iff.mp (Except.ok.inj h)
          refine Or.inr ⟨s, W, rfl, hpre, ?_, Or.inl ⟨hf, h2.symm⟩⟩
          subst hrel
          exact h1.symm
    | int n => simp at h
    | boolV b => simp at h

end CargoRemote

namespace CargoRemote

/-- An inline table without a `path` entry is left alone and triggers no
locator call: the result is the same for every locator. -/
theorem processInline_no_path {locate : RPath → Except String RPath}
    {ws : List PatchProject} {es : List InlineEntry}
    (h : inlineGet es "path" = none) :
    processInline locate ws es = Except.ok (es, ws) := by
  unfold processInline
  simp [h]

theorem processInline_ws_mono {locate : RPath → Except String RPath}
    {ws ws' : List PatchProject} {es es' : List InlineEntry}
    (h : processInline locate ws es = Except.ok (es', ws')) : ws <+: ws' := by
  rcases processInline_spec h with ⟨-, -, rfl⟩ | ⟨s, W, -, -, -, ⟨-, rfl⟩ | ⟨-, -, -, -, rfl⟩⟩
  · exact List.prefix_rfl
  · exact List.prefix_rfl
  · exact List.prefix_append ws [W]

/-- Discovery-order one-sidedness: appending a fresh workspace preserves the
invariant that no earlier root is a component-prefix of a later root. -/
theorem processInline_pairwise {locate : RPath → Except String RPath}
    {ws ws' : List PatchProject} {es es' : List InlineEntry}
    (h : processInline locate ws es = Except.ok (es', ws'))
    (hp : List.Pairwise (fun a b => ¬ a.local_path <+: b.local_path) ws) :
    List.Pairwise (fun a b => ¬ a.local_path <+: b.local_path) ws' := by
  rcases processInline_spec h with ⟨-, -, rfl⟩ | ⟨s, W, -, hpre, -, ⟨-, rfl⟩ | ⟨hnone, -, -, -, rfl⟩⟩
  · exact hp
  · exact hp
  · rw [List.pairwise_append]
    refine ⟨hp, List.pairwise_singleton _ _, ?_⟩
    intro a ha b hb
    rw [List.mem_singleton] at hb
    subst hb
    intro hcontra
    have hfind := List.find?_eq_none.mp hnone a ha
    exact hfind ( List.isPrefixOf_iff_prefix.mpr (hcontra.trans hpre))

theorem processCrateEntries_ws_mono {locate : RPath → Except String RPath} :
    ∀ {es : List (String × String × Item)} {ws ws₁ : List PatchProject}
      {es' : List (String × String × Item)},
      processCrateEntries locate ws es = Except.ok (es', ws₁) → ws <+: ws₁
  | [], ws, ws₁, es', h => by
    unfold processCrateEntries at h
    simp only [Except.ok.injEq, Prod.mk.injEq] at h
    exact h.2 ▸ List.prefix_rfl
  | (p, k, item) :: rest, ws, ws₁, es', h => by
    cases item with
    | inlineItem pre es0 post =>
      unfold processCrateEntries at h
      cases hr1 : processInline locate ws es0 with
      | error e => simp [hr1] at h
      | ok r1 =>
        obtain ⟨es1, ws1⟩ := r1
        simp only [hr1] at h
        cases hr2 : processCrateEntries locate ws1 rest with
        | error e => simp [hr2] at h
        | ok r2 =>
          obtain ⟨rest', ws2⟩ := r2
          simp only [hr2, Except.ok.injEq, Prod.mk.injEq] at h
          exact h.2 ▸ (processInline_ws_mono hr1).trans (processCrateEntries_ws_mono hr2)
    | scalarItem raw v =>
      unfold processCrateEntries at h
      cases hr : processCrateEntries locate ws rest with
      | error e => simp [hr] at h
      | ok r =>
        obtain ⟨rest', ws2⟩ := r
        simp only [hr, Except.ok.injEq, Prod.mk.injEq] at h
        exact h.2 ▸ processCrateEntries_ws_mono hr
    | tableItem es0 =>
      unfold processCrateEntries at h
      cases hr : processCrateEntries locate ws rest with
      | error e => simp [hr] at h
      | ok r =>
        obtain ⟨rest', ws2⟩ := r
        simp only [hr, Except.ok.injEq, Prod.mk.injEq] at h
        exact h.2 ▸ processCrateEntries_ws_mono hr
    | noneItem =>
      unfold processCrateEntries at h
      cases hr : processCrateEntries locate ws rest with
      | error e => simp [hr] at h
      | ok r =>
        obtain ⟨rest', ws2⟩ := r
        simp only [hr, Except.ok.injEq, Prod.mk.injEq] at h
        exact h.2 ▸ processCrateEntries_ws_mono hr

end CargoRemote

namespace CargoRemote

theorem processCrateEntries_pairwise {locate : RPath → Except String RPath} :
    ∀ {es : List (String × String × Item)} {ws ws₁ : List PatchProject}
      {es' : List (String × String × Item)},
      processCrateEntries locate ws es = Except.ok (es', ws₁) →
      List.Pairwise (fun a b => ¬ a.local_path <+: b.local_path) ws →
      List.Pairwise (fun a b => ¬ a.local_path <+: b.local_path) ws₁
  | [], ws, ws₁, es', h, hp => by
    unfold processCrateEntries at h
    simp only [Except.ok.injEq, Prod.mk.injEq] at h
    exact h.2 ▸ hp
  | (p, k, item) :: rest, ws, ws₁, es', h, hp => by
    cases item with
    | inlineItem pre es0 post =>
      unfold processCrateEntries at h
      cases hr1 : processInline locate ws es0 with
      | error e => simp [hr1] at h
      | ok r1 =>
        obtain ⟨es1, ws1⟩ := r1
        simp only [hr1] at h
        cases hr2 : processCrateEntries locate ws1 rest with
        | error e => simp [hr2] at h
        | ok r2 =>
          obtain ⟨rest', ws2⟩ := r2
          simp only [hr2, Except.ok.injEq, Prod.mk.injEq] at h
          exact h.2 ▸ processCrateEntries_pairwise hr2 (processInline_pairwise hr1 hp)
    | scalarItem raw v =>
      unfold processCrateEntries at h
      cases hr : processCrateEntries locate ws rest with
      | error e => simp [hr] at h
      | ok r =>
        obtain ⟨rest', ws2⟩ := r
        simp only [hr, Except.ok.injEq, Prod.mk.injEq] at h
        exact h.2 ▸ processCrateEntries_pairwise hr hp
    | tableItem es0 =>
      unfold processCrateEntries at h
      cases hr : processCrateEntries locate ws rest with
      | error e => simp [hr] at h
      | ok r =>
        obtain ⟨rest', ws2⟩ := r
        simp only [hr, Except.ok.injEq, Prod.mk.injEq] at h
        exact h.2 ▸ processCrateEntries_pairwise hr hp
    | noneItem =>
      unfold processCrateEntries at h
      cases hr : processCrateEntries locate ws rest with
      | error e => simp [hr] at h
      | ok r =>
        obtain ⟨rest', ws2⟩ := r
        simp only [hr, Except.ok.injEq, Prod.mk.injEq] at h
        exact h.2 ▸ processCrateEntries_pairwise hr hp

theorem processPatchEntries_pairwise {locate : RPath → Except String RPath} :
    ∀ {es : List (String × String × Item)} {ws ws₁ : List PatchProject}
      {es' : List (String × String × Item)},
      processPatchEntries locate ws es = Except.ok (es', ws₁) →
      List.Pairwise (fun a b => ¬ a.local_path <+: b.local_path) ws →
      List.Pairwise (fun a b => ¬ a.local_path <+: b.local_path) ws₁
  | [], ws, ws₁, es', h, hp => by
    unfold processPatchEntries at h
    simp only [Except.ok.injEq, Prod.mk.injEq] at h
    exact h.2 ▸ hp
  | (p, k, item) :: rest, ws, ws₁, es', h, hp => by
    cases item with
    | tableItem es0 =>
      unfold processPatchEntries at h
      cases hr1 : processCrateEntries locate ws es0 with
      | error e => simp [hr1] at h
      | ok r1 =>
        obtain ⟨es1, ws1⟩ := r1
        simp only [hr1] at h
        cases hr2 : processPatchEntries locate ws1 rest with
        | error e => simp [hr2] at h
        | ok r2 =>
          obtain ⟨rest', ws2⟩ := r2
          simp only [hr2, Except.ok.injEq, Prod.mk.injEq] at h
          exact h.2 ▸ processPatchEntries_pairwise hr2 (processCrateEntries_pairwise hr1 hp)
    | scalarItem raw v =>
      unfold processPatchEntries at h
      cases hr : processPatchEntries locate ws rest with
      | error e => simp [hr] at h
      | ok r =>
        obtain ⟨rest', ws2⟩ := r
        simp only [hr, Except.ok.injEq, Prod.mk.injEq] at h
        exact h.2 ▸ processPatchEntries_pairwise hr hp
    | inlineItem pre es0 post =>
      unfold processPatchEntries at h
      cases hr : processPatchEntries locate ws rest with
      | error e => simp [hr] at h
      | ok r =>
        obtain ⟨rest', ws2⟩ := r
        simp only [hr, Except.ok.injEq, Prod.mk.injEq] at h
        exact h.2 ▸ processPatchEntries_pairwise hr hp
    | noneItem =>
      unfold processPatchEntries at h
      cases hr : processPatchEntries locate ws rest with
      | error e => simp [hr] at h
      | ok r =>
        obtain ⟨rest', ws2⟩ := r
        simp only [hr, Except.ok.injEq, Prod.mk.injEq] at h
        exact h.2 ▸ processPatchEntries_pairwise hr hp

theorem rewritePatchEntry_pairwise {locate : RPath → Except String RPath} :
    ∀ {es es' : List (String × String × Item)} {ws : List PatchProject},
      rewritePatchEntry locate es = Except.ok (some (es', ws)) →
      List.Pairwise (fun a b => ¬ a.local_path <+: b.local_path) ws
  | [], es', ws, h => by simp [rewritePatchEntry] at h
  | (p, k, item) :: rest, es', ws, h => by
    unfold rewritePatchEntry at h
    by_cases hk : k = "patch"
    · subst hk
      rw [if_pos rfl] at h
      cases item with
      | tableItem es0 =>
        cases hr : processPatchEntries locate [] es0 with
        | error e => simp [hr] at h
        | ok r =>
          obtain ⟨es1, ws1⟩ := r
          simp only [hr, Except.ok.injEq, Option.some.injEq, Prod.mk.injEq] at h
          exact h.2 ▸ processPatchEntries_pairwise hr List.Pairwise.nil
      | scalarItem raw v => simp at h
      | inlineItem pre es0 post => simp at h
      | noneItem => simp at h
    · rw [if_neg hk] at h
      cases hr : rewritePatchEntry locate rest with
      | error e => simp [hr] at h
      | ok r =>
        cases r with
        | none => simp [hr] at h
        | some v =>
          obtain ⟨rest', ws1⟩ := v
          simp only [hr, Except.ok.injEq, Option.some.injEq, Prod.mk.injEq] at h
          exact h.2 ▸ rewritePatchEntry_pairwise hr

/-- Every successful extraction yields a workspace list whose earlier entries
never have a root that is a component-prefix of a later entry's root. -/
theorem extract_ws_pairwise {manifest : Document}
    {locate : RPath → Except String RPath} {d' : Document} {ws : List PatchProject}
    (h : extract_patched_crates_and_adjust_toml manifest locate =
      Except.ok (some (d', ws))) :
    List.Pairwise (fun a b => ¬ a.local_path <+: b.local_path) ws := by
  unfold extract_patched_crates_and_adjust_toml at h
  cases hr : rewritePatchEntry locate manifest.entries with
  | error e => simp [hr] at h
  | ok r =>
    cases r with
    | none => simp [hr] at h
    | some v =>
      obtain ⟨es, ws0⟩ := v
      simp only [hr, Except.ok.injEq, Option.some.injEq, Prod.mk.injEq] at h
      exact h.2 ▸ rewritePatchEntry_pairwise hr

end CargoRemote

namespace CargoRemote

/-- The value a `path` field is rewritten to, relative to workspace `W`:
`W.remote_path` with the remainder of the parsed path after `W.local_path`
pushed onto it, rendered back to text. -/
def rewrittenPathValue (W : PatchProject) (s : String) : String :=
  pathToString (pushPath W.remote_path ((parsePath s).drop W.local_path.length))

theorem rewritePatchEntry_of_no_patch {locate : RPath → Except String RPath} :
    ∀ {es : List (String × String × Item)}, findEntry es "patch" = none →
      rewritePatchEntry locate es = Except.ok none
  | [], _ => by simp [rewritePatchEntry]
  | (p, k, item) :: rest, h => by
    unfold findEntry at h
    by_cases hk : k = "patch"
    · rw [if_pos hk] at h
      exact absurd h (by simp)
    · rw [if_neg hk] at h
      unfold rewritePatchEntry
      rw [if_neg hk, rewritePatchEntry_of_no_patch h]

/-- Substring test on the underlying character lists (raw-byte containment). -/
def charsContain (sub : List Char) : List Char → Bool
  | [] => sub.isEmpty
  | c :: rest => sub.isPrefixOf (c :: rest) || charsContain sub rest

/-- Whether `sub` occurs as a contiguous substring of `s`. -/
def strContains (s sub : String) : Bool := charsContain sub.data s.data

end CargoRemote

namespace CargoRemote

/-! ## Concrete fixtures used by witnesses and counterexamples -/

/-- A standard inline `path` entry with the given string value. -/
def pathEntry (s : String) : InlineEntry :=
  { pre := " path = ", key := "path", valRepr := renderStr s,
    value := TValue.str s, post := " " }

/-- One crate-override entry written as an inline table with a `path`. -/
def crateEntry (name val : String) : String × String × Item :=
  (name ++ " =", name, Item.inlineItem " " [pathEntry val] "\n")

/-- A document whose root has exactly a `patch` table with the given children. -/
def patchDoc (sources : List (String × String × Item)) : Document :=
  { entries := [("", "patch", Item.tableItem sources)], trailing := "" }

def c4doc : Document :=
  patchDoc [("[patch.x]\n", "x", Item.tableItem
    [crateEntry "c1" "/a/b/c", crateEntry "c2" "/a/b/d"])]

def c4loc : RPath → Except String RPath := fun p =>
  if p = parsePath "/a/b/c" then Except.ok (parsePath "/a/b/c")
  else Except.ok (parsePath "/a/b")

def c4out : Document :=
  patchDoc [("[patch.x]\n", "x", Item.tableItem
    [crateEntry "c1" "../c", crateEntry "c2" "../b/d"])]

def c4ws : List PatchProject :=
  [⟨"c", parsePath "/a/b/c", [Component.parentDir, Component.normal "c"]⟩,
   ⟨"b", parsePath "/a/b", [Component.parentDir, Component.normal "b"]⟩]

/-! ## Claim theorems -/

/-- C1: for every patch `path` field holding string `P` that is processed
successfully, there is a workspace `W` in the resulting running list (the one
found in the list, or the one just obtained from the locator) whose root is a
component-prefix of `P`, and the field is rewritten in place to
`W.remote_path` joined with the remainder of `P` after stripping the root;
moreover every workspace in the list has `remote_path = ../<name>`, whose
final segment is `name`, with `name` the final segment of the root. -/
theorem c1_patch_field_rewrite {locate : RPath → Except String RPath}
    {ws ws' : List PatchProject} {es es' : List InlineEntry}
    (hinv : ∀ p ∈ ws, p.remote_path = [Component.parentDir, Component.normal p.name] ∧
      fileNamePath p.local_path = some p.name)
    (h : processInline locate ws es = Except.ok (es', ws'))
    {s : String} (hs : inlineGet es "path" = some (TValue.str s)) :
    (∀ p ∈ ws', p.remote_path = [Component.parentDir, Component.normal p.name] ∧
      fileNamePath p.remote_path = some p.name ∧
      fileNamePath p.local_path = some p.name) ∧
    ∃ W ∈ ws', W.local_path <+: parsePath s ∧
      inlineGet es' "path" = some (TValue.str (rewrittenPathValue W s)) := by
  rcases processInline_spec h with ⟨hnone, -, -⟩ |
    ⟨s0, W, hg, hpre, hes, ⟨hf, hws⟩ | ⟨-, -, hn, hrem, hws⟩⟩
  · rw [hs] at hnone
    exact absurd hnone (by simp)
  · have hs0 : s0 = s := by
      rw [hs] at hg
      exact (TValue.str.inj (Option.some.inj hg)).symm
    subst hs0
    subst hws
    refine ⟨fun p hp => ⟨(hinv p hp).1, ?_, (hinv p hp).2⟩, W,
      List.mem_of_find?_eq_some hf, hpre, ?_⟩
    · rw [(hinv p hp).1]
      exact fileNamePath_parent_normal p.name
    · rw [hes]
      exact inlineGet_insertPath _ hg
  · have hs0 : s0 = s := by
      rw [hs] at hg
      exact (TValue.str.inj (Option.some.inj hg)).symm
    subst hs0
    subst hws
    refine ⟨fun p hp => ?_, W, List.mem_append_right ws (by simp), hpre, ?_⟩
    · rcases List.mem_append.mp hp with hl | hr
      · exact ⟨(hinv p hl).1, (hinv p hl).1 ▸ fileNamePath_parent_normal p.name,
          (hinv p hl).2⟩
      · rw [List.mem_singleton.mp hr]
        exact ⟨hrem, hrem ▸ fileNamePath_parent_normal W.name, hn⟩
    · rw [hes]
      exact inlineGet_insertPath _ hg

def c1es : List InlineEntry := [pathEntry "/w/x"]

def c1loc : RPath → Except String RPath := fun p =>
  if p = parsePath "/w/x" then Except.ok (parsePath "/w") else Except.error "E"

def c1ws' : List PatchProject :=
  [⟨"w", parsePath "/w", [Component.parentDir, Component.normal "w"]⟩]

/-- Witness for C1 at a concrete input. -/
theorem c1_patch_field_rewrite_witness :
    (processInline c1loc [] c1es = Except.ok ([pathEntry "../w/x"], c1ws')) ∧
    (inlineGet c1es "path" = some (TValue.str "/w/x")) ∧
    ((∀ p ∈ c1ws', p.remote_path = [Component.parentDir, Component.normal p.name] ∧
        fileNamePath p.remote_path = some p.name ∧
        fileNamePath p.local_path = some p.name) ∧
      ∃ W ∈ c1ws', W.local_path <+: parsePath "/w/x" ∧
        inlineGet [pathEntry "../w/x"] "path" =
          some (TValue.str (rewrittenPathValue W "/w/x"))) :=
  ⟨rfl, rfl, @c1_patch_field_rewrite c1loc [] c1ws' c1es [pathEntry "../w/x"]
    (fun p hp => absurd hp (List.not_mem_nil p)) rfl "/w/x" rfl⟩

/-- C3: the containment check of the planner works on whole path components:
a workspace is matched only when its root's components form a leading
subsequence of the candidate's components; in particular `/foo/bar2` is never
merged into a workspace rooted at `/foo/bar`, although `/foo/bar` is a raw
string prefix of `/foo/bar2`. -/
theorem c3_containment_component_based :
    (∀ (ws : List PatchProject) (path : RPath) (W : PatchProject),
      findKnownWorkspace ws path = some W → W.local_path <+: path) ∧
    (∀ (n : String) (r : RPath),
      findKnownWorkspace [⟨n, parsePath "/foo/bar", r⟩] (parsePath "/foo/bar2") = none) ∧
    "/foo/bar".data.isPrefixOf "/foo/bar2".data = true := by
  refine ⟨fun ws path W h => ?_, fun n r => rfl, by decide⟩
  have h' : List.find? (fun t => t.local_path.isPrefixOf path) ws = some W := h
  have h2 := @List.find?_some PatchProject
    (fun t => t.local_path.isPrefixOf path) W ws h'
  exact List.isPrefixOf_iff_prefix.mp h2

/-- Witness for C3 at a concrete input. -/
theorem c3_containment_component_based_witness :
    (findKnownWorkspace c1ws' (parsePath "/w/sub/crate") = some
      ⟨"w", parsePath "/w", [Component.parentDir, Component.normal "w"]⟩) ∧
    (⟨"w", parsePath "/w", [Component.parentDir, Component.normal "w"]⟩ :
      PatchProject).local_path <+: parsePath "/w/sub/crate" :=
  ⟨rfl, c3_containment_component_based.1 c1ws' (parsePath "/w/sub/crate") _ rfl⟩

/-- C4 counterexample: with a locator that maps `/a/b/c` to itself and
`/a/b/d` to `/a/b`, the successful plan contains two workspaces whose roots
are nested: the later root `/a/b` is a component-prefix of the earlier root
`/a/b/c`.  This refutes the claim that no plan ever contains two workspaces
with one `local_path` a prefix of the other. -/
theorem c4_counterexample :
    extract_patched_crates_and_adjust_toml c4doc c4loc =
      Except.ok (some (c4out, c4ws)) ∧
    c4ws.map PatchProject.local_path = [parsePath "/a/b/c", parsePath "/a/b"] ∧
    (parsePath "/a/b") <+: (parsePath "/a/b/c") :=
  ⟨rfl, rfl, List.isPrefixOf_iff_prefix.mp (by decide)⟩

/-- C4 (amended): in every successful plan, ordered by discovery, no earlier
workspace's `local_path` is a component-prefix of a later workspace's
`local_path` (hence all roots are distinct); the reverse direction can fail
when the locator returns a root containing a previously discovered one. -/
theorem c4_plan_discovery_order_no_nesting {manifest : Document}
    {locate : RPath → Except String RPath} {d' : Document} {ws : List PatchProject}
    (h : extract_patched_crates_and_adjust_toml manifest locate =
      Except.ok (some (d', ws))) :
    List.Pairwise (fun a b => ¬ a.local_path <+: b.local_path) ws :=
  extract_ws_pairwise h

/-- Witness for the amended C4 at a concrete input. -/
theorem c4_plan_discovery_order_no_nesting_witness :
    extract_patched_crates_and_adjust_toml c4doc c4loc =
      Except.ok (some (c4out, c4ws)) ∧
    List.Pairwise (fun a b => ¬ a.local_path <+: b.local_path) c4ws :=
  ⟨rfl, @c4_plan_discovery_order_no_nesting c4doc c4loc c4out c4ws rfl⟩

/-- C6: a manifest without a top-level `patch` key yields the distinct
"no patches" result (`Except.ok none`, not an error), no workspace list and
no transfer commands: the whole operation is a successful no-op. -/
theorem c6_no_patch_section_noop (d : Document) (locate : RPath → Except String RPath)
    (build_path build_server tmp_toml : String)
    (h : findEntry d.entries "patch" = none) :
    extract_patched_crates_and_adjust_toml d locate = Except.ok none ∧
    handle_patches build_path build_server d tmp_toml locate = Except.ok none := by
  have hx : extract_patched_crates_and_adjust_toml d locate = Except.ok none := by
    unfold extract_patched_crates_and_adjust_toml
    rw [rewritePatchEntry_of_no_patch h]
  exact ⟨hx, by unfold handle_patches; rw [hx]⟩

def c6doc : Document :=
  { entries := [("", "package", Item.tableItem
      [("[package]\nname =", "name", Item.scalarItem " \x22demo\x22\n" (TValue.str "demo"))])],
    trailing := "" }

/-- Witness for C6 at a concrete input. -/
theorem c6_no_patch_section_noop_witness :
    findEntry c6doc.entries "patch" = none ∧
    extract_patched_crates_and_adjust_toml c6doc c1loc = Except.ok none ∧
    handle_patches "bp" "server" c6doc "tmp" c1loc = Except.ok none :=
  ⟨rfl, (c6_no_patch_section_noop c6doc c1loc "bp" "server" "tmp" rfl).1,
    (c6_no_patch_section_noop c6doc c1loc "bp" "server" "tmp" rfl).2⟩

/-- C8: a patch entry without a `path` key is never mutated, never treated as
a path field, and never triggers the locator: for every locator (including an
always-failing one) the planner returns the inline table and the running list
unchanged, so its bytes pass through to the output unchanged. -/
theorem c8_non_path_entry_untouched (locate : RPath → Except String RPath)
    (ws : List PatchProject) (es : List InlineEntry)
    (h : inlineGet es "path" = none) :
    processInline locate ws es = Except.ok (es, ws) :=
  processInline_no_path h

def c8git : List InlineEntry :=
  [{ pre := " git = ", key := "git",
     valRepr := "\x22https://some-url/test/test\x22",
     value := TValue.str "https://some-url/test/test", post := " " }]

def c8locFail : RPath → Except String RPath := fun _ => Except.error "no workspace"

/-- Witness for C8 at a concrete input: a `git`-only entry with an
always-failing locator still succeeds, unchanged. -/
theorem c8_non_path_entry_untouched_witness :
    inlineGet c8git "path" = none ∧
    processInline c8locFail [] c8git = Except.ok (c8git, []) :=
  ⟨rfl, c8_non_path_entry_untouched c8locFail [] c8git rfl⟩

def c10doc : Document :=
  patchDoc [("[patch.x]\n", "x", Item.tableItem
    [("bad-crate =", "bad-crate", Item.inlineItem " "
      [{ pre := " path = ", key := "path", valRepr := "5",
         value := TValue.int 5, post := " " }] "\n")])]

def c10loc : RPath → Except String RPath := fun p => Except.ok p

/-- C10: a `patch` inline crate table whose `path` value is not a string (an
integer here) makes the planner panic while reading the value
(`as_str().unwrap()` on `None`), rather than skipping the entry or failing
gracefully; the model reports the panic message of `Option::unwrap`. -/
theorem c10_non_string_path_panics :
    extract_patched_crates_and_adjust_toml c10doc c10loc =
      Except.error unwrapNoneMsg := rfl

end CargoRemote

namespace CargoRemote

/-- The panic message produced when the locator fails (`expect` on the
locator's result), carrying the locator's own error text. -/
def locateFailMsg (e : String) : String :=
  "Can not determine workspace path: \x22" ++ e ++ "\x22"

/-- C9 (amended): if the locator fails on a patch path not contained in any
already-known workspace, the planner aborts fatally with the fixed panic
text plus the locator's error, and no further fields are processed — the
result is the same error whatever entries follow.  The offending path itself
is not part of the reported message (see the counterexample). -/
theorem c9_locator_failure_fatal {locate : RPath → Except String RPath}
    {ws : List PatchProject} {es : List InlineEntry} {s e : String}
    (hs : inlineGet es "path" = some (TValue.str s))
    (hk : findKnownWorkspace ws (parsePath s) = none)
    (he : locate (parsePath s) = Except.error e) :
    processInline locate ws es = Except.error (locateFailMsg e) ∧
    ∀ (rest : List (String × String × Item)) (p k pre post : String),
      processCrateEntries locate ws ((p, k, Item.inlineItem pre es post) :: rest) =
        Except.error (locateFailMsg e) := by
  have h1 : processInline locate ws es = Except.error (locateFailMsg e) := by
    unfold processInline
    simp only [hs, hk, he]
    rfl
  refine ⟨h1, fun rest p k pre post => ?_⟩
  unfold processCrateEntries
  simp only [h1]

def c9doc : Document :=
  patchDoc [("[patch.x]\n", "x", Item.tableItem [crateEntry "some-crate" "/secret/crate"])]

def c9loc : RPath → Except String RPath := fun _ => Except.error "locator failed"

/-- C9 counterexample: the fatal error carries only the fixed text and the
locator's message; the offending path `/secret/crate` does not occur in the
reported error, refuting the claim that the error is reported together with
the offending path. -/
theorem c9_counterexample :
    extract_patched_crates_and_adjust_toml c9doc c9loc =
      Except.error (locateFailMsg "locator failed") ∧
    strContains (locateFailMsg "locator failed") "/secret/crate" = false :=
  ⟨rfl, by decide⟩

/-- Witness for the amended C9 at a concrete input. -/
theorem c9_locator_failure_fatal_witness :
    inlineGet [pathEntry "/secret/crate"] "path" =
      some (TValue.str "/secret/crate") ∧
    findKnownWorkspace [] (parsePath "/secret/crate") = none ∧
    c9loc (parsePath "/secret/crate") = Except.error "locator failed" ∧
    (processInline c9loc [] [pathEntry "/secret/crate"] =
      Except.error (locateFailMsg "locator failed") ∧
    ∀ (rest : List (String × String × Item)) (p k pre post : String),
      processCrateEntries c9loc []
          ((p, k, Item.inlineItem pre [pathEntry "/secret/crate"] post) :: rest) =
        Except.error (locateFailMsg "locator failed")) :=
  ⟨rfl, rfl, rfl,
    @c9_locator_failure_fatal c9loc [] [pathEntry "/secret/crate"]
      "/secret/crate" "locator failed" rfl rfl rfl⟩

end CargoRemote

namespace CargoRemote

/-! ## Byte-level decomposition of the serialized document

The serialized bytes of a document are split into chunks, where only the raw
value representations of `path` entries of inline tables sitting at the
position the planner rewrites (inline-table children of table children of
the top-level `patch` table) are distinguished; everything else is a fixed
chunk.  Rewriting may change the contents of `pathVal` chunks only. -/

inductive Chunk where
  | fixed (s : String)
  | pathVal (s : String)
deriving DecidableEq, Repr

def chunkText : Chunk → String
  | Chunk.fixed s => s
  | Chunk.pathVal s => s

/-- Forget the contents of `pathVal` chunks, keep fixed bytes exactly. -/
def chunkShape : Chunk → Chunk
  | Chunk.fixed s => Chunk.fixed s
  | Chunk.pathVal _ => Chunk.pathVal ""

def chunkJoin : List Chunk → String
  | [] => ""
  | c :: rest => chunkText c ++ chunkJoin rest

def inlineEntryChunks (e : InlineEntry) : List Chunk :=
  if e.key = "path" then [Chunk.fixed e.pre, Chunk.pathVal e.valRepr, Chunk.fixed e.post]
  else [Chunk.fixed (serializeInlineEntry e)]

def inlineEntriesChunks : List InlineEntry → List Chunk
  | [] => []
  | e :: rest => inlineEntryChunks e ++ inlineEntriesChunks rest

def crateEntryChunks : String × String × Item → List Chunk
  | (p, _, Item.inlineItem pre es post) =>
      Chunk.fixed (p ++ pre ++ "\x7b") ::
        (inlineEntriesChunks es ++ [Chunk.fixed ("\x7d" ++ post)])
  | (p, _, item) => [Chunk.fixed (p ++ serializeItem item)]

def crateEntriesChunks : List (String × String × Item) → List Chunk
  | [] => []
  | x :: rest => crateEntryChunks x ++ crateEntriesChunks rest

def patchEntryChunks : String × String × Item → List Chunk
  | (p, _, Item.tableItem es) => Chunk.fixed p :: crateEntriesChunks es
  | (p, _, item) => [Chunk.fixed (p ++ serializeItem item)]

def patchEntriesChunks : List (String × String × Item) → List Chunk
  | [] => []
  | x :: rest => patchEntryChunks x ++ patchEntriesChunks rest

def topChunks : List (String × String × Item) → List Chunk
  | [] => []
  | (p, k, item) :: rest =>
    if k = "patch" then
      match item with
      | Item.tableItem es =>
          Chunk.fixed p :: (patchEntriesChunks es ++ [Chunk.fixed (serializeEntries rest)])
      | _ => [Chunk.fixed (p ++ serializeItem item ++ serializeEntries rest)]
    else Chunk.fixed (p ++ serializeItem item) :: topChunks rest

def docChunks (d : Document) : List Chunk :=
  topChunks d.entries ++ [Chunk.fixed d.trailing]

theorem chunkJoin_append (l₁ l₂ : List Chunk) :
    chunkJoin (l₁ ++ l₂) = chunkJoin l₁ ++ chunkJoin l₂ := by
  induction l₁ with
  | nil => rfl
  | cons c rest ih =>
    show chunkText c ++ chunkJoin (rest ++ l₂) =
      (chunkText c ++ chunkJoin rest) ++ chunkJoin l₂
    rw [ih, String.append_assoc]

theorem inlineEntryChunks_join (e : InlineEntry) :
    chunkJoin (inlineEntryChunks e) = serializeInlineEntry e := by
  unfold inlineEntryChunks
  by_cases hk : e.key = "path"
  · rw [if_pos hk]
    simp only [chunkJoin, chunkText, serializeInlineEntry, String.append_empty,
      String.append_assoc]
  · rw [if_neg hk]
    simp only [chunkJoin, chunkText, String.append_empty]

theorem inlineEntriesChunks_join (es : List InlineEntry) :
    chunkJoin (inlineEntriesChunks es) = serializeInlineEntries es := by
  induction es with
  | nil => rfl
  | cons e rest ih =>
    simp only [inlineEntriesChunks, serializeInlineEntries, chunkJoin_append,
      inlineEntryChunks_join, ih]

theorem crateEntryChunks_join (x : String × String × Item) :
    chunkJoin (crateEntryChunks x) = x.1 ++ serializeItem x.2.2 := by
  obtain ⟨p, k, item⟩ := x
  cases item with
  | inlineItem pre es post =>
    simp only [crateEntryChunks, chunkJoin, chunkText, chunkJoin_append,
      inlineEntriesChunks_join, serializeItem, String.append_empty, String.append_assoc]
  | scalarItem raw v => simp [crateEntryChunks, chunkJoin, chunkText, String.append_empty]
  | tableItem es => simp [crateEntryChunks, chunkJoin, chunkText, String.append_empty]
  | noneItem => simp [crateEntryChunks, chunkJoin, chunkText, String.append_empty]

theorem crateEntriesChunks_join (es : List (String × String × Item)) :
    chunkJoin (crateEntriesChunks es) = serializeEntries es := by
  induction es with
  | nil => rfl
  | cons x rest ih =>
    obtain ⟨p, k, item⟩ := x
    simp only [crateEntriesChunks, chunkJoin_append, crateEntryChunks_join, ih,
      serializeEntries, String.append_assoc]

theorem patchEntryChunks_join (x : String × String × Item) :
    chunkJoin (patchEntryChunks x) = x.1 ++ serializeItem x.2.2 := by
  obtain ⟨p, k, item⟩ := x
  cases item with
  | tableItem es =>
    simp only [patchEntryChunks, chunkJoin, chunkText, crateEntriesChunks_join,
      serializeItem]
  | scalarItem raw v => simp [patchEntryChunks, chunkJoin, chunkText, String.append_empty]
  | inlineItem pre es post =>
      simp [patchEntryChunks, chunkJoin, chunkText, String.append_empty]
  | noneItem => simp [patchEntryChunks, chunkJoin, chunkText, String.append_empty]

theorem patchEntriesChunks_join (es : List (String × String × Item)) :
    chunkJoin (patchEntriesChunks es) = serializeEntries es := by
  induction es with
  | nil => rfl
  | cons x rest ih =>
    obtain ⟨p, k, item⟩ := x
    simp only [patchEntriesChunks, chunkJoin_append, patchEntryChunks_join, ih,
      serializeEntries, String.append_assoc]

theorem topChunks_join (es : List (String × String × Item)) :
    chunkJoin (topChunks es) = serializeEntries es := by
  induction es with
  | nil => rfl
  | cons x rest ih =>
    obtain ⟨p, k, item⟩ := x
    by_cases hk : k = "patch"
    · subst hk
      cases item with
      | tableItem es0 =>
        simp only [topChunks, if_pos rfl, chunkJoin, chunkText, chunkJoin_append,
          patchEntriesChunks_join, serializeEntries, serializeItem,
          String.append_empty, String.append_assoc]
      | scalarItem raw v =>
        simp only [topChunks, if_pos rfl, chunkJoin, chunkText, serializeEntries,
          String.append_empty, String.append_assoc]
      | inlineItem pre es0 post =>
        simp only [topChunks, if_pos rfl, chunkJoin, chunkText, serializeEntries,
          String.append_empty, String.append_assoc]
      | noneItem =>
        simp only [topChunks, if_pos rfl, chunkJoin, chunkText, serializeEntries,
          String.append_empty, String.append_assoc]
    · simp only [topChunks, if_neg hk, chunkJoin, chunkText, ih, serializeEntries,
        String.append_assoc]

theorem docChunks_join (d : Document) : chunkJoin (docChunks d) = serializeDoc d := by
  simp only [docChunks, serializeDoc, chunkJoin_append, topChunks_join, chunkJoin,
    chunkText, String.append_empty]

end CargoRemote

namespace CargoRemote

theorem inlineInsertPath_shapes {es : List InlineEntry} {v : TValue} (t : String)
    (hg : inlineGet es "path" = some v) :
    (inlineEntriesChunks (inlineInsertPath es t)).map chunkShape =
      (inlineEntriesChunks es).map chunkShape := by
  induction es with
  | nil => simp [inlineGet] at hg
  | cons e rest ih =>
    unfold inlineGet at hg
    by_cases hk : e.key = "path"
    · simp only [inlineInsertPath, if_pos hk, inlineEntriesChunks, List.map_append]
      simp only [inlineEntryChunks, hk, if_pos rfl, if_true, List.map_cons,
        List.map_nil, chunkShape]
    · rw [if_neg hk] at hg
      simp only [inlineInsertPath, if_neg hk, inlineEntriesChunks, List.map_append,
        ih hg]

theorem processInline_shapes {locate : RPath → Except String RPath}
    {ws ws' : List PatchProject} {es es' : List InlineEntry}
    (h : processInline locate ws es = Except.ok (es', ws')) :
    (inlineEntriesChunks es').map chunkShape = (inlineEntriesChunks es).map chunkShape := by
  rcases processInline_spec h with ⟨-, rfl, -⟩ | ⟨s, W, hg, -, hes, -⟩
  · rfl
  · rw [hes]
    exact inlineInsertPath_shapes _ hg

theorem processCrateEntries_shapes {locate : RPath → Except String RPath} :
    ∀ {es : List (String × String × Item)} {ws ws₁ : List PatchProject}
      {es' : List (String × String × Item)},
      processCrateEntries locate ws es = Except.ok (es', ws₁) →
      (crateEntriesChunks es').map chunkShape = (crateEntriesChunks es).map chunkShape
  | [], ws, ws₁, es', h => by
    unfold processCrateEntries at h
    simp only [Except.ok.injEq, Prod.mk.injEq] at h
    rw [← h.1]
  | (p, k, item) :: rest, ws, ws₁, es', h => by
    cases item with
    | inlineItem pre es0 post =>
      unfold processCrateEntries at h
      cases hr1 : processInline locate ws es0 with
      | error e => simp [hr1] at h
      | ok r1 =>
        obtain ⟨es1, ws1⟩ := r1
        simp only [hr1] at h
        cases hr2 : processCrateEntries locate ws1 rest with
        | error e => simp [hr2] at h
        | ok r2 =>
          obtain ⟨rest', ws2⟩ := r2
          simp only [hr2, Except.ok.injEq, Prod.mk.injEq] at h
          rw [← h.1]
          simp only [crateEntriesChunks, crateEntryChunks, List.map_append,
            List.map_cons, inlineEntriesChunks]
          rw [processInline_shapes hr1, processCrateEntries_shapes hr2]
    | scalarItem raw v =>
      unfold processCrateEntries at h
      cases hr : processCrateEntries locate ws rest with
      | error e => simp [hr] at h
      | ok r =>
        obtain ⟨rest', ws2⟩ := r
        simp only [hr, Except.ok.injEq, Prod.mk.injEq] at h
        rw [← h.1]
        simp only [crateEntriesChunks, crateEntryChunks, List.map_append]
        rw [processCrateEntries_shapes hr]
    | tableItem es0 =>
      unfold processCrateEntries at h
      cases hr : processCrateEntries locate ws rest with
      | error e => simp [hr] at h
      | ok r =>
        obtain ⟨rest', ws2⟩ := r
        simp only [hr, Except.ok.injEq, Prod.mk.injEq] at h
        rw [← h.1]
        simp only [crateEntriesChunks, crateEntryChunks, List.map_append]
        rw [processCrateEntries_shapes hr]
    | noneItem =>
      unfold processCrateEntries at h
      cases hr : processCrateEntries locate ws rest with
      | error e => simp [hr] at h
      | ok r =>
        obtain ⟨rest', ws2⟩ := r
        simp only [hr, Except.ok.injEq, Prod.mk.injEq] at h
        rw [← h.1]
        simp only [crateEntriesChunks, crateEntryChunks, List.map_append]
        rw [processCrateEntries_shapes hr]

theorem processPatchEntries_shapes {locate : RPath → Except String RPath} :
    ∀ {es : List (String × String × Item)} {ws ws₁ : List PatchProject}
      {es' : List (String × String × Item)},
      processPatchEntries locate ws es = Except.ok (es', ws₁) →
      (patchEntriesChunks es').map chunkShape = (patchEntriesChunks es).map chunkShape
  | [], ws, ws₁, es', h => by
    unfold processPatchEntries at h
    simp only [Except.ok.injEq, Prod.mk.injEq] at h
    rw [← h.1]
  | (p, k, item) :: rest, ws, ws₁, es', h => by
    cases item with
    | tableItem es0 =>
      unfold processPatchEntries at h
      cases hr1 : processCrateEntries locate ws es0 with
      | error e => simp [hr1] at h
      | ok r1 =>
        obtain ⟨es1, ws1⟩ := r1
        simp only [hr1] at h
        cases hr2 : processPatchEntries locate ws1 rest with
        | error e => simp [hr2] at h
        | ok r2 =>
          obtain ⟨rest', ws2⟩ := r2
          simp only [hr2, Except.ok.injEq, Prod.mk.injEq] at h
          rw [← h.1]
          simp only [patchEntriesChunks, patchEntryChunks, List.map_append,
            List.map_cons]
          rw [processCrateEntries_shapes hr1, processPatchEntries_shapes hr2]
    | scalarItem raw v =>
      unfold processPatchEntries at h
      cases hr : processPatchEntries locate ws rest with
      | error e => simp [hr] at h
      | ok r =>
        obtain ⟨rest', ws2⟩ := r
        simp only [hr, Except.ok.injEq, Prod.mk.injEq] at h
        rw [← h.1]
        simp only [patchEntriesChunks, patchEntryChunks, List.map_append]
        rw [processPatchEntries_shapes hr]
    | inlineItem pre es0 post =>
      unfold processPatchEntries at h
      cases hr : processPatchEntries locate ws rest with
      | error e => simp [hr] at h
      | ok r =>
        obtain ⟨rest', ws2⟩ := r
        simp only [hr, Except.ok.injEq, Prod.mk.injEq] at h
        rw [← h.1]
        simp only [patchEntriesChunks, patchEntryChunks, List.map_append]
        rw [processPatchEntries_shapes hr]
    | noneItem =>
      unfold processPatchEntries at h
      cases hr : processPatchEntries locate ws rest with
      | error e => simp [hr] at h
      | ok r =>
        obtain ⟨rest', ws2⟩ := r
        simp only [hr, Except.ok.injEq, Prod.mk.injEq] at h
        rw [← h.1]
        simp only [patchEntriesChunks, patchEntryChunks, List.map_append]
        rw [processPatchEntries_shapes hr]

theorem rewritePatchEntry_shapes {locate : RPath → Except String RPath} :
    ∀ {es es' : List (String × String × Item)} {ws : List PatchProject},
      rewritePatchEntry locate es = Except.ok (some (es', ws)) →
      (topChunks es').map chunkShape = (topChunks es).map chunkShape
  | [], es', ws, h => by simp [rewritePatchEntry] at h
  | (p, k, item) :: rest, es', ws, h => by
    unfold rewritePatchEntry at h
    by_cases hk : k = "patch"
    · subst hk
      rw [if_pos rfl] at h
      cases item with
      | tableItem es0 =>
        cases hr : processPatchEntries locate [] es0 with
        | error e => simp [hr] at h
        | ok r =>
          obtain ⟨es1, ws1⟩ := r
          simp only [hr, Except.ok.injEq, Option.some.injEq, Prod.mk.injEq] at h
          rw [← h.1]
          simp only [topChunks, if_pos rfl, if_true, List.map_append, List.map_cons]
          rw [processPatchEntries_shapes hr]
      | scalarItem raw v => simp at h
      | inlineItem pre es0 post => simp at h
      | noneItem => simp at h
    · rw [if_neg hk] at h
      cases hr : rewritePatchEntry locate rest with
      | error e => simp [hr] at h
      | ok r =>
        cases r with
        | none => simp [hr] at h
        | some v =>
          obtain ⟨rest', ws1⟩ := v
          simp only [hr, Except.ok.injEq, Option.some.injEq, Prod.mk.injEq] at h
          rw [← h.1]
          simp only [topChunks, if_neg hk, List.map_cons]
          rw [rewritePatchEntry_shapes hr]

/-- C7: on every successful rewrite, the serialized output is byte-identical
to the serialized input outside the raw value representations of the `path`
fields the planner can rewrite: both serializations decompose into the same
chunk sequence (`docChunks`), with every fixed chunk equal byte-for-byte,
and only the `pathVal` chunk contents possibly differing. -/
theorem c7_formatting_preserved {manifest : Document}
    {locate : RPath → Except String RPath} {d' : Document} {ws : List PatchProject}
    (h : extract_patched_crates_and_adjust_toml manifest locate =
      Except.ok (some (d', ws))) :
    (docChunks d').map chunkShape = (docChunks manifest).map chunkShape ∧
    serializeDoc d' = chunkJoin (docChunks d') ∧
    serializeDoc manifest = chunkJoin (docChunks manifest) := by
  unfold extract_patched_crates_and_adjust_toml at h
  cases hr : rewritePatchEntry locate manifest.entries with
  | error e => simp [hr] at h
  | ok r =>
    cases r with
    | none => simp [hr] at h
    | some v =>
      obtain ⟨es, ws0⟩ := v
      simp only [hr, Except.ok.injEq, Option.some.injEq, Prod.mk.injEq] at h
      refine ⟨?_, (docChunks_join d').symm, (docChunks_join manifest).symm⟩
      rw [← h.1]
      simp only [docChunks, List.map_append, List.map_cons]
      rw [rewritePatchEntry_shapes hr]

def c7doc : Document :=
  { entries :=
      [("\n", "hello", Item.scalarItem "hello = \x22toml\x22\n" (TValue.str "toml")),
       ("", "patch", Item.tableItem
         [("[patch.a]\n", "a", Item.tableItem
            [crateEntry "a-crate" "/some/prefix/a/src/a-crate",
             ("git-patched-crate =", "git-patched-crate", Item.inlineItem " " c8git "\n")])])],
    trailing := "" }

def c7loc : RPath → Except String RPath := fun p =>
  if (parsePath "/some/prefix/a").isPrefixOf p then Except.ok (parsePath "/some/prefix/a")
  else Except.error "Invalid Path"

def c7out : Document :=
  { entries :=
      [("\n", "hello", Item.scalarItem "hello = \x22toml\x22\n" (TValue.str "toml")),
       ("", "patch", Item.tableItem
         [("[patch.a]\n", "a", Item.tableItem
            [crateEntry "a-crate" "../a/src/a-crate",
             ("git-patched-crate =", "git-patched-crate", Item.inlineItem " " c8git "\n")])])],
    trailing := "" }

/-- Witness for C7 at a concrete input. -/
theorem c7_formatting_preserved_witness :
    extract_patched_crates_and_adjust_toml c7doc c7loc =
      Except.ok (some (c7out, [⟨"a", parsePath "/some/prefix/a",
        [Component.parentDir, Component.normal "a"]⟩])) ∧
    ((docChunks c7out).map chunkShape = (docChunks c7doc).map chunkShape ∧
      serializeDoc c7out = chunkJoin (docChunks c7out) ∧
      serializeDoc c7doc = chunkJoin (docChunks c7doc)) :=
  ⟨rfl, @c7_formatting_preserved c7doc c7loc c7out
    [⟨"a", parsePath "/some/prefix/a", [Component.parentDir, Component.normal "a"]⟩] rfl⟩

end CargoRemote

namespace CargoRemote

theorem processPatchEntries_ws_mono {locate : RPath → Except String RPath} :
    ∀ {es : List (String × String × Item)} {ws ws₁ : List PatchProject}
      {es' : List (String × String × Item)},
      processPatchEntries locate ws es = Except.ok (es', ws₁) → ws <+: ws₁
  | [], ws, ws₁, es', h => by
    unfold processPatchEntries at h
    simp only [Except.ok.injEq, Prod.mk.injEq] at h
    exact h.2 ▸ List.prefix_rfl
  | (p, k, item) :: rest, ws, ws₁, es', h => by
    cases item with
    | tableItem es0 =>
      unfold processPatchEntries at h
      cases hr1 : processCrateEntries locate ws es0 with
      | error e => simp [hr1] at h
      | ok r1 =>
        obtain ⟨es1, ws1⟩ := r1
        simp only [hr1] at h
        cases hr2 : processPatchEntries locate ws1 rest with
        | error e => simp [hr2] at h
        | ok r2 =>
          obtain ⟨rest', ws2⟩ := r2
          simp only [hr2, Except.ok.injEq, Prod.mk.injEq] at h
          exact h.2 ▸ (processCrateEntries_ws_mono hr1).trans
            (processPatchEntries_ws_mono hr2)
    | scalarItem raw v =>
      unfold processPatchEntries at h
      cases hr : processPatchEntries locate ws rest with
      | error e => simp [hr] at h
      | ok r =>
        obtain ⟨rest', ws2⟩ := r
        simp only [hr, Except.ok.injEq, Prod.mk.injEq] at h
        exact h.2 ▸ processPatchEntries_ws_mono hr
    | inlineItem pre es0 post =>
      unfold processPatchEntries at h
      cases hr : processPatchEntries locate ws rest with
      | error e => simp [hr] at h
      | ok r =>
        obtain ⟨rest', ws2⟩ := r
        simp only [hr, Except.ok.injEq, Prod.mk.injEq] at h
        exact h.2 ▸ processPatchEntries_ws_mono hr
    | noneItem =>
      unfold processPatchEntries at h
      cases hr : processPatchEntries locate ws rest with
      | error e => simp [hr] at h
      | ok r =>
        obtain ⟨rest', ws2⟩ := r
        simp only [hr, Except.ok.injEq, Prod.mk.injEq] at h
        exact h.2 ▸ processPatchEntries_ws_mono hr

/-! ## Input/output relations describing exactly which nodes are rewritten -/

/-- How one crate-override item relates to its processed output: an inline
table keeps its surrounding bytes, with its `path` entry either absent (and
the table untouched) or rewritten relative to a workspace of the final list;
every other item shape passes through unchanged. -/
def itemRewritten (wsF : List PatchProject) : Item → Item → Prop
  | Item.inlineItem pre es post, b =>
      ∃ es', b = Item.inlineItem pre es' post ∧
        ((inlineGet es "path" = none ∧ es' = es) ∨
         (∃ s W, inlineGet es "path" = some (TValue.str s) ∧ W ∈ wsF ∧
            W.local_path <+: parsePath s ∧
            es' = inlineInsertPath es (rewrittenPathValue W s)))
  | a, b => b = a

/-- Relation between a crate-override entry and its output. -/
def overrideEntryRel (wsF : List PatchProject)
    (a b : String × String × Item) : Prop :=
  a.1 = b.1 ∧ a.2.1 = b.2.1 ∧ itemRewritten wsF a.2.2 b.2.2

/-- Relation between a child of the `patch` table and its output: children
that are tables have their own children related override-wise, all other
children pass through unchanged. -/
def sourceEntryRel (wsF : List PatchProject) :
    (String × String × Item) → (String × String × Item) → Prop
  | (p, k, Item.tableItem ces), b =>
      ∃ ces', b = (p, k, Item.tableItem ces') ∧
        List.Forall₂ (overrideEntryRel wsF) ces ces'
  | a, b => b = a

/-- Relation between a root-table entry and its output: unchanged, or the
`patch` table with source-wise related children. -/
def topEntryRel (wsF : List PatchProject)
    (a b : String × String × Item) : Prop :=
  b = a ∨ (a.2.1 = "patch" ∧ ∃ es es', a.2.2 = Item.tableItem es ∧
    b = (a.1, a.2.1, Item.tableItem es') ∧ List.Forall₂ (sourceEntryRel wsF) es es')

theorem processCrateEntries_forall₂ {locate : RPath → Except String RPath} :
    ∀ {es : List (String × String × Item)} {ws ws₁ : List PatchProject}
      {es' : List (String × String × Item)} {wsF : List PatchProject},
      processCrateEntries locate ws es = Except.ok (es', ws₁) → ws₁ <+: wsF →
      List.Forall₂ (overrideEntryRel wsF) es es'
  | [], ws, ws₁, es', wsF, h, hf => by
    unfold processCrateEntries at h
    simp only [Except.ok.injEq, Prod.mk.injEq] at h
    rw [← h.1]
    exact List.Forall₂.nil
  | (p, k, item) :: rest, ws, ws₁, es', wsF, h, hf => by
    cases item with
    | inlineItem pre es0 post =>
      unfold processCrateEntries at h
      cases hr1 : processInline locate ws es0 with
      | error e => simp [hr1] at h
      | ok r1 =>
        obtain ⟨es1, ws1⟩ := r1
        simp only [hr1] at h
        cases hr2 : processCrateEntries locate ws1 rest with
        | error e => simp [hr2] at h
        | ok r2 =>
          obtain ⟨rest', ws2⟩ := r2
          simp only [hr2, Except.ok.injEq, Prod.mk.injEq] at h
          rw [← h.1]
          have hws1F : ws1 <+: wsF :=
            (processCrateEntries_ws_mono hr2).trans (h.2 ▸ hf)
          refine List.Forall₂.cons ⟨rfl, rfl, ?_⟩
            (processCrateEntries_forall₂ hr2 (h.2 ▸ hf))
          rcases processInline_spec hr1 with ⟨hnone, hes, -⟩ |
            ⟨s, W, hg, hpre, hes, hcase⟩
          · exact ⟨es1, rfl, Or.inl ⟨hnone, hes⟩⟩
          · refine ⟨es1, rfl, Or.inr ⟨s, W, hg, ?_, hpre, hes⟩⟩
            rcases hcase with ⟨hfind, hws⟩ | ⟨-, -, -, -, hws⟩
            · exact hws1F.subset (hws ▸ List.mem_of_find?_eq_some hfind)
            · exact hws1F.subset (hws ▸ List.mem_append_right ws (by simp))
    | scalarItem raw v =>
      unfold processCrateEntries at h
      cases hr : processCrateEntries locate ws rest with
      | error e => simp [hr] at h
      | ok r =>
        obtain ⟨rest', ws2⟩ := r
        simp only [hr, Except.ok.injEq, Prod.mk.injEq] at h
        rw [← h.1]
        exact List.Forall₂.cons ⟨rfl, rfl, rfl⟩ (processCrateEntries_forall₂ hr (h.2 ▸ hf))
    | tableItem es0 =>
      unfold processCrateEntries at h
      cases hr : processCrateEntries locate ws rest with
      | error e => simp [hr] at h
      | ok r =>
        obtain ⟨rest', ws2⟩ := r
        simp only [hr, Except.ok.injEq, Prod.mk.injEq] at h
        rw [← h.1]
        exact List.Forall₂.cons ⟨rfl, rfl, rfl⟩ (processCrateEntries_forall₂ hr (h.2 ▸ hf))
    | noneItem =>
      unfold processCrateEntries at h
      cases hr : processCrateEntries locate ws rest with
      | error e => simp [hr] at h
      | ok r =>
        obtain ⟨rest', ws2⟩ := r
        simp only [hr, Except.ok.injEq, Prod.mk.injEq] at h
        rw [← h.1]
        exact List.Forall₂.cons ⟨rfl, rfl, rfl⟩ (processCrateEntries_forall₂ hr (h.2 ▸ hf))

theorem processPatchEntries_forall₂ {locate : RPath → Except String RPath} :
    ∀ {es : List (String × String × Item)} {ws ws₁ : List PatchProject}
      {es' : List (String × String × Item)} {wsF : List PatchProject},
      processPatchEntries locate ws es = Except.ok (es', ws₁) → ws₁ <+: wsF →
      List.Forall₂ (sourceEntryRel wsF) es es'
  | [], ws, ws₁, es', wsF, h, hf => by
    unfold processPatchEntries at h
    simp only [Except.ok.injEq, Prod.mk.injEq] at h
    rw [← h.1]
    exact List.Forall₂.nil
  | (p, k, item) :: rest, ws, ws₁, es', wsF, h, hf => by
    cases item with
    | tableItem es0 =>
      unfold processPatchEntries at h
      cases hr1 : processCrateEntries locate ws es0 with
      | error e => simp [hr1] at h
      | ok r1 =>
        obtain ⟨es1, ws1⟩ := r1
        simp only [hr1] at h
        cases hr2 : processPatchEntries locate ws1 rest with
        | error e => simp [hr2] at h
        | ok r2 =>
          obtain ⟨rest', ws2⟩ := r2
          simp only [hr2, Except.ok.injEq, Prod.mk.injEq] at h
          rw [← h.1]
          have hws1F : ws1 <+: wsF :=
            (processPatchEntries_ws_mono hr2).trans (h.2 ▸ hf)
          exact List.Forall₂.cons ⟨es1, rfl, processCrateEntries_forall₂ hr1 hws1F⟩
            (processPatchEntries_forall₂ hr2 (h.2 ▸ hf))
    | scalarItem raw v =>
      unfold processPatchEntries at h
      cases hr : processPatchEntries locate ws rest with
      | error e => simp [hr] at h
      | ok r =>
        obtain ⟨rest', ws2⟩ := r
        simp only [hr, Except.ok.injEq, Prod.mk.injEq] at h
        rw [← h.1]
        exact List.Forall₂.cons rfl (processPatchEntries_forall₂ hr (h.2 ▸ hf))
    | inlineItem pre es0 post =>
      unfold processPatchEntries at h
      cases hr : processPatchEntries locate ws rest with
      | error e => simp [hr] at h
      | ok r =>
        obtain ⟨rest', ws2⟩ := r
        simp only [hr, Except.ok.injEq, Prod.mk.injEq] at h
        rw [← h.1]
        exact List.Forall₂.cons rfl (processPatchEntries_forall₂ hr (h.2 ▸ hf))
    | noneItem =>
      unfold processPatchEntries at h
      cases hr : processPatchEntries locate ws rest with
      | error e => simp [hr] at h
      | ok r =>
        obtain ⟨rest', ws2⟩ := r
        simp only [hr, Except.ok.injEq, Prod.mk.injEq] at h
        rw [← h.1]
        exact List.Forall₂.cons rfl (processPatchEntries_forall₂ hr (h.2 ▸ hf))

theorem forall₂_self_of {α : Type _} {R : α → α → Prop} (h : ∀ a, R a a) :
    ∀ l : List α, List.Forall₂ R l l
  | [] => List.Forall₂.nil
  | a :: l => List.Forall₂.cons (h a) (forall₂_self_of h l)

theorem rewritePatchEntry_forall₂ {locate : RPath → Except String RPath} :
    ∀ {es es' : List (String × String × Item)} {ws : List PatchProject},
      rewritePatchEntry locate es = Except.ok (some (es', ws)) →
      List.Forall₂ (topEntryRel ws) es es'
  | [], es', ws, h => by simp [rewritePatchEntry] at h
  | (p, k, item) :: rest, es', ws, h => by
    unfold rewritePatchEntry at h
    by_cases hk : k = "patch"
    · subst hk
      rw [if_pos rfl] at h
      cases item with
      | tableItem es0 =>
        cases hr : processPatchEntries locate [] es0 with
        | error e => simp [hr] at h
        | ok r =>
          obtain ⟨es1, ws1⟩ := r
          simp only [hr, Except.ok.injEq, Option.some.injEq, Prod.mk.injEq] at h
          rw [← h.1]
          refine List.Forall₂.cons (Or.inr ⟨rfl, es0, es1, rfl, rfl, ?_⟩)
            (@forall₂_self_of (String × String × Item) (topEntryRel ws)
              (fun a => Or.inl rfl) rest)
          exact processPatchEntries_forall₂ hr (h.2 ▸ List.prefix_rfl)
      | scalarItem raw v => simp at h
      | inlineItem pre es0 post => simp at h
      | noneItem => simp at h
    · rw [if_neg hk] at h
      cases hr : rewritePatchEntry locate rest with
      | error e => simp [hr] at h
      | ok r =>
        cases r with
        | none => simp [hr] at h
        | some v =>
          obtain ⟨rest', ws1⟩ := v
          simp only [hr, Except.ok.injEq, Option.some.injEq, Prod.mk.injEq] at h
          rw [← h.1]
          exact List.Forall₂.cons (Or.inl rfl) (h.2 ▸ rewritePatchEntry_forall₂ hr)

end CargoRemote

namespace CargoRemote

/-- C5 (amended): on every successful extraction, the document is related to
its output entry-by-entry: entries outside the first `patch` table pass
through unchanged; inside it, children that are tables have each of their
children related as follows — a crate override written as an inline table
keeps its surrounding bytes and, when it has a `path` entry (necessarily a
string on success), that entry is rewritten relative to a workspace of the
produced list; overrides written in any other form (in particular as
non-inline tables) pass through unchanged and are never yielded. -/
theorem c5_inline_overrides_rewritten {manifest : Document}
    {locate : RPath → Except String RPath} {d' : Document} {ws : List PatchProject}
    (h : extract_patched_crates_and_adjust_toml manifest locate =
      Except.ok (some (d', ws))) :
    List.Forall₂ (topEntryRel ws) manifest.entries d'.entries ∧
    d'.trailing = manifest.trailing := by
  unfold extract_patched_crates_and_adjust_toml at h
  cases hr : rewritePatchEntry locate manifest.entries with
  | error e => simp [hr] at h
  | ok r =>
    cases r with
    | none => simp [hr] at h
    | some v =>
      obtain ⟨es, ws0⟩ := v
      simp only [hr, Except.ok.injEq, Option.some.injEq, Prod.mk.injEq] at h
      constructor
      · rw [← h.1]
        exact h.2 ▸ rewritePatchEntry_forall₂ hr
      · rw [← h.1]

def c5doc : Document :=
  patchDoc [("[patch.crates-io]\n", "crates-io", Item.tableItem
    [("[patch.crates-io.foo]\n", "foo", Item.tableItem
       [("path =", "path", Item.scalarItem " \x22/w/foo\x22\n" (TValue.str "/w/foo"))])])]

def c5loc : RPath → Except String RPath := fun _ =>
  Except.error "no workspace should be located"

/-- C5 counterexample: a crate override written as a regular (non-inline)
table under `patch`, with a `path` entry holding a string value, is not
yielded and not rewritten: extraction succeeds with an unchanged document
and an empty workspace list, even under a locator that always fails (so the
locator is never consulted).  This refutes the claim that every such
override table is yielded regardless of how it is written. -/
theorem c5_counterexample :
    extract_patched_crates_and_adjust_toml c5doc c5loc =
      Except.ok (some (c5doc, [])) ∧
    findEntry c5doc.entries "patch" =
      some (Item.tableItem
        [("[patch.crates-io]\n", "crates-io", Item.tableItem
          [("[patch.crates-io.foo]\n", "foo", Item.tableItem
             [("path =", "path", Item.scalarItem " \x22/w/foo\x22\n" (TValue.str "/w/foo"))])])]) :=
  ⟨rfl, rfl⟩

/-- Witness for the amended C5 at a concrete input. -/
theorem c5_inline_overrides_rewritten_witness :
    extract_patched_crates_and_adjust_toml c7doc c7loc =
      Except.ok (some (c7out, [⟨"a", parsePath "/some/prefix/a",
        [Component.parentDir, Component.normal "a"]⟩])) ∧
    List.Forall₂ (topEntryRel [⟨"a", parsePath "/some/prefix/a",
        [Component.parentDir, Component.normal "a"]⟩]) c7doc.entries c7out.entries ∧
    c7out.trailing = c7doc.trailing :=
  ⟨rfl,
    (@c5_inline_overrides_rewritten c7doc c7loc c7out
      [⟨"a", parsePath "/some/prefix/a", [Component.parentDir, Component.normal "a"]⟩]
      rfl).1,
    (@c5_inline_overrides_rewritten c7doc c7loc c7out
      [⟨"a", parsePath "/some/prefix/a", [Component.parentDir, Component.normal "a"]⟩]
      rfl).2⟩

end CargoRemote

namespace CargoRemote

/-! ## Path-value collectors (document order, mirroring the planner's walk) -/

/-- The `path` value of one inline table, when present (at most one,
matching the single `get("path")` of the loop body). -/
def inlinePathValues (es : List InlineEntry) : List TValue :=
  match inlineGet es "path" with
  | some v => [v]
  | none => []

/-- The `path` values contributed by one child of a source table: only
inline-table children contribute. -/
def itemPathValues : Item → List TValue
  | Item.inlineItem _ es _ => inlinePathValues es
  | Item.scalarItem _ _ => []
  | Item.tableItem _ => []
  | Item.noneItem => []

/-- All `path` values of the inline-table children of one source table. -/
def cratePathValues : List (String × String × Item) → List TValue
  | [] => []
  | (_, _, item) :: rest => itemPathValues item ++ cratePathValues rest

/-- The `path` values contributed by one child of the `patch` table: only
table children are visited. -/
def patchItemPathValues : Item → List TValue
  | Item.tableItem es => cratePathValues es
  | Item.inlineItem _ _ _ => []
  | Item.scalarItem _ _ => []
  | Item.noneItem => []

/-- All `path` values under the `patch` table, in processing order. -/
def patchPathValues : List (String × String × Item) → List TValue
  | [] => []
  | (_, _, item) :: rest => patchItemPathValues item ++ patchPathValues rest

/-- The `path` values contributed by the top-level `patch` item itself:
only a table `patch` item is visited at all. -/
def topItemPathValues : Item → List TValue
  | Item.tableItem es => patchPathValues es
  | Item.inlineItem _ _ _ => []
  | Item.scalarItem _ _ => []
  | Item.noneItem => []

/-- All `path` values the planner will visit in the whole document. -/
def topPathValues : List (String × String × Item) → List TValue
  | [] => []
  | (_, k, item) :: rest =>
    if k = "patch" then topItemPathValues item else topPathValues rest

/-- The workspace entry created for root `R` with final segment `n`. -/
def rootProject (n : String) (R : RPath) : PatchProject :=
  ⟨n, R, [Component.parentDir, Component.normal n]⟩

/-- Rewrite one collected value relative to workspace `W`. -/
def valueRewrite (W : PatchProject) : TValue → TValue
  | TValue.str s => TValue.str (rewrittenPathValue W s)
  | v => v

theorem processInline_start {locate : RPath → Except String RPath}
    {es : List InlineEntry} {s n : String} {R : RPath}
    (hg : inlineGet es "path" = some (TValue.str s))
    (hpre : R.isPrefixOf (parsePath s) = true)
    (hloc : locate (parsePath s) = Except.ok R)
    (hn : fileNamePath R = some n) :
    processInline locate [] es =
      Except.ok (inlineInsertPath es (rewrittenPathValue (rootProject n R) s),
        [rootProject n R]) := by
  unfold processInline
  simp only [hg]
  have hfk : findKnownWorkspace [] (parsePath s) = none := rfl
  simp only [hfk, hloc, hn, stripPrefixPath_of_isPrefixOf hpre]
  rfl

theorem processInline_known {locate : RPath → Except String RPath}
    {es : List InlineEntry} {s : String} {P : PatchProject}
    (hg : inlineGet es "path" = some (TValue.str s))
    (hpre : P.local_path.isPrefixOf (parsePath s) = true) :
    processInline locate [P] es =
      Except.ok (inlineInsertPath es (rewrittenPathValue P s), [P]) := by
  unfold processInline
  simp only [hg]
  have hfk : findKnownWorkspace [P] (parsePath s) = some P := by
    unfold findKnownWorkspace
    simp [List.find?, hpre]
  simp only [hfk, stripPrefixPath_of_isPrefixOf hpre]
  rfl

end CargoRemote

namespace CargoRemote

theorem inlinePathValues_nil_iff {es : List InlineEntry} :
    inlinePathValues es = [] ↔ inlineGet es "path" = none := by
  unfold inlinePathValues
  cases hx : inlineGet es "path" with
  | none => simp
  | some v => simp

theorem processCrateEntries_no_paths {locate : RPath → Except String RPath} :
    ∀ {es : List (String × String × Item)} {ws : List PatchProject},
      cratePathValues es = [] →
      processCrateEntries locate ws es = Except.ok (es, ws)
  | [], ws, _ => rfl
  | (p, k, item) :: rest, ws, h => by
    rw [cratePathValues] at h
    rcases List.append_eq_nil.mp h with ⟨h1, h2⟩
    cases item with
    | inlineItem pre es0 post =>
      have hg : inlineGet es0 "path" = none :=
        inlinePathValues_nil_iff.mp h1
      simp only [processCrateEntries, processInline_no_path hg,
        processCrateEntries_no_paths h2]
    | scalarItem raw v =>
      simp only [processCrateEntries, processCrateEntries_no_paths h2]
    | tableItem es0 =>
      simp only [processCrateEntries, processCrateEntries_no_paths h2]
    | noneItem =>
      simp only [processCrateEntries, processCrateEntries_no_paths h2]

theorem processCrateEntries_known {locate : RPath → Except String RPath}
    {P : PatchProject} :
    ∀ {es : List (String × String × Item)},
      (∀ v ∈ cratePathValues es, ∃ s, v = TValue.str s ∧
        P.local_path.isPrefixOf (parsePath s) = true) →
      ∃ es', processCrateEntries locate [P] es = Except.ok (es', [P]) ∧
        cratePathValues es' = (cratePathValues es).map (valueRewrite P)
  | [], _ => ⟨[], rfl, rfl⟩
  | (p, k, item) :: rest, hall => by
    have hallrest : ∀ v ∈ cratePathValues rest, ∃ s, v = TValue.str s ∧
        P.local_path.isPrefixOf (parsePath s) = true := by
      intro v hv
      exact hall v (by rw [cratePathValues]; exact List.mem_append_right _ hv)
    obtain ⟨rest', hrest, hvals⟩ := @processCrateEntries_known locate P rest hallrest
    cases item with
    | inlineItem pre es0 post =>
      cases hg : inlineGet es0 "path" with
      | none =>
        refine ⟨(p, k, Item.inlineItem pre es0 post) :: rest', ?_, ?_⟩
        · simp only [processCrateEntries, processInline_no_path hg, hrest]
        · rw [cratePathValues, cratePathValues, hvals]
          simp only [itemPathValues]
          unfold inlinePathValues
          rw [hg]
          simp
      | some v =>
        obtain ⟨s, hv, hpre⟩ := hall v (by
          rw [cratePathValues]
          refine List.mem_append_left _ ?_
          simp only [itemPathValues]
          unfold inlinePathValues
          rw [hg]
          simp)
        subst hv
        refine ⟨(p, k, Item.inlineItem pre
          (inlineInsertPath es0 (rewrittenPathValue P s)) post) :: rest', ?_, ?_⟩
        · simp only [processCrateEntries, processInline_known hg hpre, hrest]
        · rw [cratePathValues, cratePathValues, hvals]
          simp only [itemPathValues]
          unfold inlinePathValues
          rw [hg, inlineGet_insertPath _ hg]
          simp [valueRewrite]
    | scalarItem raw v =>
      refine ⟨(p, k, Item.scalarItem raw v) :: rest', ?_, ?_⟩
      · simp only [processCrateEntries, hrest]
      · rw [cratePathValues, cratePathValues, hvals]
        simp [itemPathValues]
    | tableItem es0 =>
      refine ⟨(p, k, Item.tableItem es0) :: rest', ?_, ?_⟩
      · simp only [processCrateEntries, hrest]
      · rw [cratePathValues, cratePathValues, hvals]
        simp [itemPathValues]
    | noneItem =>
      refine ⟨(p, k, Item.noneItem) :: rest', ?_, ?_⟩
      · simp only [processCrateEntries, hrest]
      · rw [cratePathValues, cratePathValues, hvals]
        simp [itemPathValues]

end CargoRemote

namespace CargoRemote

theorem processCrateEntries_start {locate : RPath → Except String RPath}
    {R : RPath} {n : String} (hn : fileNamePath R = some n) :
    ∀ {es : List (String × String × Item)} {s1 : String},
      (∀ v ∈ cratePathValues es, ∃ s, v = TValue.str s ∧
        R.isPrefixOf (parsePath s) = true) →
      (cratePathValues es).head? = some (TValue.str s1) →
      locate (parsePath s1) = Except.ok R →
      ∃ es', processCrateEntries locate [] es = Except.ok (es', [rootProject n R]) ∧
        cratePathValues es' = (cratePathValues es).map (valueRewrite (rootProject n R))
  | [], s1, _, hhead, _ => by simp [cratePathValues] at hhead
  | (p, k, item) :: rest, s1, hall, hhead, hloc => by
    have hallrest : ∀ v ∈ cratePathValues rest, ∃ s, v = TValue.str s ∧
        R.isPrefixOf (parsePath s) = true := by
      intro v hv
      exact hall v (by rw [cratePathValues]; exact List.mem_append_right _ hv)
    cases item with
    | inlineItem pre es0 post =>
      cases hg : inlineGet es0 "path" with
      | none =>
        have hempty : itemPathValues (Item.inlineItem pre es0 post) = [] := by
          simp only [itemPathValues]
          exact inlinePathValues_nil_iff.mpr hg
        have hhead' : (cratePathValues rest).head? = some (TValue.str s1) := by
          rw [cratePathValues, hempty] at hhead
          simpa using hhead
        obtain ⟨rest', hrest, hvals⟩ :=
          @processCrateEntries_start locate R n hn rest s1 hallrest hhead' hloc
        refine ⟨(p, k, Item.inlineItem pre es0 post) :: rest', ?_, ?_⟩
        · simp only [processCrateEntries, processInline_no_path hg, hrest]
        · rw [cratePathValues, cratePathValues, hvals, hempty]
          simp
      | some v =>
        have hone : itemPathValues (Item.inlineItem pre es0 post) = [v] := by
          simp only [itemPathValues]
          unfold inlinePathValues
          rw [hg]
        have hv : v = TValue.str s1 := by
          rw [cratePathValues, hone] at hhead
          simpa using hhead
        subst hv
        obtain ⟨s, hv2, hpre⟩ := hall (TValue.str s1) (by
          rw [cratePathValues, hone]
          simp)
        have hs : s = s1 := (TValue.str.inj hv2).symm
        subst hs
        have hallrest' : ∀ v ∈ cratePathValues rest, ∃ s, v = TValue.str s ∧
            (rootProject n R).local_path.isPrefixOf (parsePath s) = true := hallrest
        obtain ⟨rest', hrest, hvals⟩ :=
          @processCrateEntries_known locate (rootProject n R) rest hallrest'
        refine ⟨(p, k, Item.inlineItem pre
          (inlineInsertPath es0 (rewrittenPathValue (rootProject n R) s)) post) :: rest',
          ?_, ?_⟩
        · simp only [processCrateEntries, processInline_start hg hpre hloc hn, hrest]
        · rw [cratePathValues, cratePathValues, hvals, hone]
          simp only [itemPathValues]
          unfold inlinePathValues
          rw [inlineGet_insertPath _ hg]
          simp [valueRewrite]
    | scalarItem raw v =>
      have hhead' : (cratePathValues rest).head? = some (TValue.str s1) := by
        rw [cratePathValues] at hhead
        simpa [itemPathValues] using hhead
      obtain ⟨rest', hrest, hvals⟩ :=
        @processCrateEntries_start locate R n hn rest s1 hallrest hhead' hloc
      refine ⟨(p, k, Item.scalarItem raw v) :: rest', ?_, ?_⟩
      · simp only [processCrateEntries, hrest]
      · rw [cratePathValues, cratePathValues, hvals]
        simp [itemPathValues]
    | tableItem es0 =>
      have hhead' : (cratePathValues rest).head? = some (TValue.str s1) := by
        rw [cratePathValues] at hhead
        simpa [itemPathValues] using hhead
      obtain ⟨rest', hrest, hvals⟩ :=
        @processCrateEntries_start locate R n hn rest s1 hallrest hhead' hloc
      refine ⟨(p, k, Item.tableItem es0) :: rest', ?_, ?_⟩
      · simp only [processCrateEntries, hrest]
      · rw [cratePathValues, cratePathValues, hvals]
        simp [itemPathValues]
    | noneItem =>
      have hhead' : (cratePathValues rest).head? = some (TValue.str s1) := by
        rw [cratePathValues] at hhead
        simpa [itemPathValues] using hhead
      obtain ⟨rest', hrest, hvals⟩ :=
        @processCrateEntries_start locate R n hn rest s1 hallrest hhead' hloc
      refine ⟨(p, k, Item.noneItem) :: rest', ?_, ?_⟩
      · simp only [processCrateEntries, hrest]
      · rw [cratePathValues, cratePathValues, hvals]
        simp [itemPathValues]

end CargoRemote

namespace CargoRemote

theorem processPatchEntries_no_paths {locate : RPath → Except String RPath} :
    ∀ {es : List (String × String × Item)} {ws : List PatchProject},
      patchPathValues es = [] →
      processPatchEntries locate ws es = Except.ok (es, ws)
  | [], ws, _ => rfl
  | (p, k, item) :: rest, ws, h => by
    rw [patchPathValues] at h
    rcases List.append_eq_nil.mp h with ⟨h1, h2⟩
    cases item with
    | tableItem es0 =>
      have h1' : cratePathValues es0 = [] := h1
      simp only [processPatchEntries, processCrateEntries_no_paths h1',
        processPatchEntries_no_paths h2]
    | scalarItem raw v =>
      simp only [processPatchEntries, processPatchEntries_no_paths h2]
    | inlineItem pre es0 post =>
      simp only [processPatchEntries, processPatchEntries_no_paths h2]
    | noneItem =>
      simp only [processPatchEntries, processPatchEntries_no_paths h2]

theorem processPatchEntries_known {locate : RPath → Except String RPath}
    {P : PatchProject} :
    ∀ {es : List (String × String × Item)},
      (∀ v ∈ patchPathValues es, ∃ s, v = TValue.str s ∧
        P.local_path.isPrefixOf (parsePath s) = true) →
      ∃ es', processPatchEntries locate [P] es = Except.ok (es', [P]) ∧
        patchPathValues es' = (patchPathValues es).map (valueRewrite P)
  | [], _ => ⟨[], rfl, rfl⟩
  | (p, k, item) :: rest, hall => by
    have hallrest : ∀ v ∈ patchPathValues rest, ∃ s, v = TValue.str s ∧
        P.local_path.isPrefixOf (parsePath s) = true := by
      intro v hv
      exact hall v (by rw [patchPathValues]; exact List.mem_append_right _ hv)
    obtain ⟨rest', hrest, hvals⟩ := @processPatchEntries_known locate P rest hallrest
    cases item with
    | tableItem es0 =>
      have hallces : ∀ v ∈ cratePathValues es0, ∃ s, v = TValue.str s ∧
          P.local_path.isPrefixOf (parsePath s) = true := by
        intro v hv
        exact hall v (by
          rw [patchPathValues]
          exact List.mem_append_left _ (by simpa [patchItemPathValues] using hv))
      obtain ⟨ces', hces, hcv⟩ := @processCrateEntries_known locate P es0 hallces
      refine ⟨(p, k, Item.tableItem ces') :: rest', ?_, ?_⟩
      · simp only [processPatchEntries, hces, hrest]
      · rw [patchPathValues, patchPathValues, hvals]
        simp only [patchItemPathValues]
        rw [hcv, List.map_append]
    | scalarItem raw v =>
      refine ⟨(p, k, Item.scalarItem raw v) :: rest', ?_, ?_⟩
      · simp only [processPatchEntries, hrest]
      · rw [patchPathValues, patchPathValues, hvals]
        simp [patchItemPathValues]
    | inlineItem pre es0 post =>
      refine ⟨(p, k, Item.inlineItem pre es0 post) :: rest', ?_, ?_⟩
      · simp only [processPatchEntries, hrest]
      · rw [patchPathValues, patchPathValues, hvals]
        simp [patchItemPathValues]
    | noneItem =>
      refine ⟨(p, k, Item.noneItem) :: rest', ?_, ?_⟩
      · simp only [processPatchEntries, hrest]
      · rw [patchPathValues, patchPathValues, hvals]
        simp [patchItemPathValues]

theorem processPatchEntries_start {locate : RPath → Except String RPath}
    {R : RPath} {n : String} (hn : fileNamePath R = some n) :
    ∀ {es : List (String × String × Item)} {s1 : String},
      (∀ v ∈ patchPathValues es, ∃ s, v = TValue.str s ∧
        R.isPrefixOf (parsePath s) = true) →
      (patchPathValues es).head? = some (TValue.str s1) →
      locate (parsePath s1) = Except.ok R →
      ∃ es', processPatchEntries locate [] es = Except.ok (es', [rootProject n R]) ∧
        patchPathValues es' = (patchPathValues es).map (valueRewrite (rootProject n R))
  | [], s1, _, hhead, _ => by simp [patchPathValues] at hhead
  | (p, k, item) :: rest, s1, hall, hhead, hloc => by
    have hallrest : ∀ v ∈ patchPathValues rest, ∃ s, v = TValue.str s ∧
        R.isPrefixOf (parsePath s) = true := by
      intro v hv
      exact hall v (by rw [patchPathValues]; exact List.mem_append_right _ hv)
    cases item with
    | tableItem es0 =>
      cases hc : cratePathValues es0 with
      | nil =>
        have hempty : patchItemPathValues (Item.tableItem es0) = [] := hc
        have hhead' : (patchPathValues rest).head? = some (TValue.str s1) := by
          rw [patchPathValues, hempty] at hhead
          simpa using hhead
        obtain ⟨rest', hrest, hvals⟩ :=
          @processPatchEntries_start locate R n hn rest s1 hallrest hhead' hloc
        refine ⟨(p, k, Item.tableItem es0) :: rest', ?_, ?_⟩
        · simp only [processPatchEntries, processCrateEntries_no_paths hc, hrest]
        · rw [patchPathValues, patchPathValues, hvals]
          simp only [patchItemPathValues]
          rw [hc]
          simp
      | cons v vs =>
        have hv : v = TValue.str s1 := by
          rw [patchPathValues] at hhead
          simp only [patchItemPathValues] at hhead
          rw [hc] at hhead
          simpa using hhead
        subst hv
        have hallces : ∀ w ∈ cratePathValues es0, ∃ s, w = TValue.str s ∧
            R.isPrefixOf (parsePath s) = true := by
          intro w hw
          exact hall w (by
            rw [patchPathValues]
            exact List.mem_append_left _ (by simpa [patchItemPathValues] using hw))
        have hhead0 : (cratePathValues es0).head? = some (TValue.str s1) := by
          rw [hc]
          rfl
        obtain ⟨ces', hces, hcv⟩ :=
          @processCrateEntries_start locate R n hn es0 s1 hallces hhead0 hloc
        have hallrest' : ∀ v ∈ patchPathValues rest, ∃ s, v = TValue.str s ∧
            (rootProject n R).local_path.isPrefixOf (parsePath s) = true := hallrest
        obtain ⟨rest', hrest, hvals⟩ :=
          @processPatchEntries_known locate (rootProject n R) rest hallrest'
        refine ⟨(p, k, Item.tableItem ces') :: rest', ?_, ?_⟩
        · simp only [processPatchEntries, hces, hrest]
        · rw [patchPathValues, patchPathValues, hvals]
          simp only [patchItemPathValues]
          rw [hcv, List.map_append]
    | scalarItem raw v =>
      have hhead' : (patchPathValues rest).head? = some (TValue.str s1) := by
        rw [patchPathValues] at hhead
        simpa [patchItemPathValues] using hhead
      obtain ⟨rest', hrest, hvals⟩ :=
        @processPatchEntries_start locate R n hn rest s1 hallrest hhead' hloc
      refine ⟨(p, k, Item.scalarItem raw v) :: rest', ?_, ?_⟩
      · simp only [processPatchEntries, hrest]
      · rw [patchPathValues, patchPathValues, hvals]
        simp [patchItemPathValues]
    | inlineItem pre es0 post =>
      have hhead' : (patchPathValues rest).head? = some (TValue.str s1) := by
        rw [patchPathValues] at hhead
        simpa [patchItemPathValues] using hhead
      obtain ⟨rest', hrest, hvals⟩ :=
        @processPatchEntries_start locate R n hn rest s1 hallrest hhead' hloc
      refine ⟨(p, k, Item.inlineItem pre es0 post) :: rest', ?_, ?_⟩
      · simp only [processPatchEntries, hrest]
      · rw [patchPathValues, patchPathValues, hvals]
        simp [patchItemPathValues]
    | noneItem =>
      have hhead' : (patchPathValues rest).head? = some (TValue.str s1) := by
        rw [patchPathValues] at hhead
        simpa [patchItemPathValues] using hhead
      obtain ⟨rest', hrest, hvals⟩ :=
        @processPatchEntries_start locate R n hn rest s1 hallrest hhead' hloc
      refine ⟨(p, k, Item.noneItem) :: rest', ?_, ?_⟩
      · simp only [processPatchEntries, hrest]
      · rw [patchPathValues, patchPathValues, hvals]
        simp [patchItemPathValues]

end CargoRemote

namespace CargoRemote

theorem rewritePatchEntry_start {locate : RPath → Except String RPath}
    {R : RPath} {n : String} (hn : fileNamePath R = some n) :
    ∀ {es : List (String × String × Item)} {s1 : String} {rest1 : List String},
      topPathValues es = (s1 :: rest1).map TValue.str →
      locate (parsePath s1) = Except.ok R →
      (∀ s ∈ s1 :: rest1, R.isPrefixOf (parsePath s) = true) →
      ∃ es', rewritePatchEntry locate es = Except.ok (some (es', [rootProject n R])) ∧
        topPathValues es' =
          (s1 :: rest1).map (fun s => TValue.str (rewrittenPathValue (rootProject n R) s))
  | [], s1, rest1, hvals, _, _ => by simp [topPathValues] at hvals
  | (p, k, item) :: rest, s1, rest1, hvals, hloc, hall => by
    by_cases hk : k = "patch"
    · subst hk
      rw [topPathValues, if_pos rfl] at hvals
      cases item with
      | tableItem es0 =>
        have hvals' : patchPathValues es0 = (s1 :: rest1).map TValue.str := hvals
        have hallv : ∀ v ∈ patchPathValues es0, ∃ s, v = TValue.str s ∧
            R.isPrefixOf (parsePath s) = true := by
          intro v hv
          rw [hvals'] at hv
          obtain ⟨s, hs, hvs⟩ := List.mem_map.mp hv
          exact ⟨s, hvs.symm, hall s hs⟩
        have hhead : (patchPathValues es0).head? = some (TValue.str s1) := by
          rw [hvals']
          rfl
        obtain ⟨es1, hes, hv⟩ :=
          @processPatchEntries_start locate R n hn es0 s1 hallv hhead hloc
        refine ⟨(p, "patch", Item.tableItem es1) :: rest, ?_, ?_⟩
        · unfold rewritePatchEntry
          rw [if_pos rfl]
          simp only [hes]
        · rw [topPathValues, if_pos rfl]
          show patchPathValues es1 = _
          rw [hv, hvals', List.map_map]
          rfl
      | scalarItem raw v => exact absurd hvals (by simp [topItemPathValues])
      | inlineItem pre es0 post => exact absurd hvals (by simp [topItemPathValues])
      | noneItem => exact absurd hvals (by simp [topItemPathValues])
    · rw [topPathValues, if_neg hk] at hvals
      obtain ⟨rest', hres, hv⟩ :=
        @rewritePatchEntry_start locate R n hn rest s1 rest1 hvals hloc hall
      refine ⟨(p, k, item) :: rest', ?_, ?_⟩
      · unfold rewritePatchEntry
        rw [if_neg hk]
        simp only [hres]
      · rw [topPathValues, if_neg hk]
        exact hv

/-- C2 (amended): when every patch path field of the manifest holds a string
path lying under a single workspace root `R` (with final segment `n`), and
the locator maps the first field's path to `R` — nothing is assumed about
the locator anywhere else, so the locator is consulted only for that first
field — the plan contains exactly one WorkspaceProject (root `R`, remote
`../n`), and every field is rewritten relative to that single project.
In general (paths under several roots), a later path inside `R` is rewritten
relative to the first workspace in discovery order whose root prefixes it,
which need not be `R`'s project (see the counterexample). -/
theorem c2_single_workspace_dedup {d : Document}
    {locate : RPath → Except String RPath} {R : RPath} {n s1 : String}
    {rest1 : List String}
    (hvals : topPathValues d.entries = (s1 :: rest1).map TValue.str)
    (hn : fileNamePath R = some n)
    (hloc : locate (parsePath s1) = Except.ok R)
    (hall : ∀ s ∈ s1 :: rest1, R.isPrefixOf (parsePath s) = true) :
    (extract_patched_crates_and_adjust_toml d locate).map
        (Option.map (fun r => (topPathValues r.1.entries, r.2))) =
      Except.ok (some
        ((s1 :: rest1).map (fun s => TValue.str (rewrittenPathValue (rootProject n R) s)),
         [rootProject n R])) := by
  obtain ⟨es', hes, hv⟩ :=
    @rewritePatchEntry_start locate R n hn d.entries s1 rest1 hvals hloc hall
  unfold extract_patched_crates_and_adjust_toml
  simp only [hes, Except.map, Option.map, hv]

end CargoRemote

namespace CargoRemote

def c2cexDoc : Document :=
  patchDoc [("[patch.x]\n", "x", Item.tableItem
    [crateEntry "k0" "/w/a/inner", crateEntry "k1" "/w/b", crateEntry "k2" "/w/a/other"])]

def c2cexLoc : RPath → Except String RPath := fun p =>
  if p = parsePath "/w/a/inner" then Except.ok (parsePath "/w/a")
  else if p = parsePath "/w/b" then Except.ok (parsePath "/w")
  else Except.error "unused"

def c2cexOut : Document :=
  patchDoc [("[patch.x]\n", "x", Item.tableItem
    [crateEntry "k0" "../a/inner", crateEntry "k1" "../w/b", crateEntry "k2" "../a/other"])]

def c2cexWs : List PatchProject :=
  [⟨"a", parsePath "/w/a", [Component.parentDir, Component.normal "a"]⟩,
   ⟨"w", parsePath "/w", [Component.parentDir, Component.normal "w"]⟩]

/-- C2 counterexample: the paths `/w/b` and `/w/a/other` both lie under the
root `R = /w` that the locator returns for the first of them, and the plan
does contain exactly one WorkspaceProject with root `/w`; but the second of
the two fields is rewritten to `../a/other` — relative to the earlier
workspace `/w/a` discovered for a previous field — and not relative to the
single `/w` project (which would give `../w/a/other`).  This refutes the
claim for arbitrary sequences of patch path fields. -/
theorem c2_counterexample :
    extract_patched_crates_and_adjust_toml c2cexDoc c2cexLoc =
      Except.ok (some (c2cexOut, c2cexWs)) ∧
    (parsePath "/w").isPrefixOf (parsePath "/w/b") = true ∧
    (parsePath "/w").isPrefixOf (parsePath "/w/a/other") = true ∧
    c2cexLoc (parsePath "/w/b") = Except.ok (parsePath "/w") ∧
    topPathValues c2cexOut.entries =
      [TValue.str "../a/inner", TValue.str "../w/b", TValue.str "../a/other"] ∧
    TValue.str "../a/other" ≠
      TValue.str (rewrittenPathValue (rootProject "w" (parsePath "/w")) "/w/a/other") :=
  ⟨rfl, rfl, rfl, rfl, rfl, by decide⟩

def c2wDoc : Document :=
  patchDoc [("[patch.x]\n", "x", Item.tableItem
    [crateEntry "wa" "/w/src/a", crateEntry "wb" "/w/src/sub/b"])]

def c2wLoc : RPath → Except String RPath := fun p =>
  if p = parsePath "/w/src/a" then Except.ok (parsePath "/w")
  else Except.error "never consulted"

/-- Witness for the amended C2 at a concrete input: two fields under `/w`,
with a locator defined only at the first path (it fails everywhere else,
showing the locator is not consulted for the second). -/
theorem c2_single_workspace_dedup_witness :
    topPathValues c2wDoc.entries =
      ("/w/src/a" :: ["/w/src/sub/b"]).map TValue.str ∧
    fileNamePath (parsePath "/w") = some "w" ∧
    c2wLoc (parsePath "/w/src/a") = Except.ok (parsePath "/w") ∧
    (∀ s ∈ "/w/src/a" :: ["/w/src/sub/b"],
      (parsePath "/w").isPrefixOf (parsePath s) = true) ∧
    (extract_patched_crates_and_adjust_toml c2wDoc c2wLoc).map
        (Option.map (fun r => (topPathValues r.1.entries, r.2))) =
      Except.ok (some
        (("/w/src/a" :: ["/w/src/sub/b"]).map
          (fun s => TValue.str (rewrittenPathValue (rootProject "w" (parsePath "/w")) s)),
         [rootProject "w" (parsePath "/w")])) :=
  ⟨rfl, rfl, rfl, by decide,
    @c2_single_workspace_dedup c2wDoc c2wLoc (parsePath "/w") "w" "/w/src/a"
      ["/w/src/sub/b"] rfl rfl rfl (by decide)⟩

end CargoRemote
